import Mathlib

/-!
Verification development for the yarn-plugin-licenses repository.

The source is TypeScript; we shallowly embed it in Lean:
strings become `List Char` (`Str`), JS `Map`/`Set` become association
lists / duplicate-free lists with insertion order, `async` concurrency
becomes an explicit cooperative scheduler, and loops become fueled
recursion.  Every definition mirrors the corresponding source function
(file and symbol named in its doc comment).
-/

namespace YarnLicenses

/-- JS strings, embedded as lists of characters. -/
abbrev Str := List Char

/-- JS whitespace (the ASCII part of the regex class `\s` and of
`String.prototype.trim`): space, tab, newline, carriage return,
vertical tab, form feed. -/
def isJsWs (c : Char) : Bool :=
  c == ' ' || c == '\t' || c == '\n' || c == '\r' ||
    c == Char.ofNat 11 || c == Char.ofNat 12

/-- `String.prototype.trim`: drop leading and trailing whitespace. -/
def jsTrim (s : Str) : Str :=
  ((s.dropWhile isJsWs).reverse.dropWhile isJsWs).reverse

/-- Splitting on runs of whitespace (`.split(/\s+/)`) followed by the
source's `.map(trim).filter(length > 0)`: the result is exactly the
maximal whitespace-free runs, which is what this returns.
Accumulator `cur` holds the current run, reversed. -/
def splitOnWsGo (cur : Str) : Str → List Str
  | [] => if cur = [] then [] else [cur.reverse]
  | c :: rest =>
    if isJsWs c then
      if cur = [] then splitOnWsGo [] rest
      else cur.reverse :: splitOnWsGo [] rest
    else splitOnWsGo (c :: cur) rest

/-- Maximal whitespace-free runs of a string, in order. -/
def splitOnWs (s : Str) : List Str := splitOnWsGo [] s

/-- `value.replace(/\s+/g, ' ')`: collapse every whitespace run to a
single space. -/
def collapseWs : Str → Str
  | [] => []
  | [c] => if isJsWs c then [' '] else [c]
  | c :: d :: rest =>
    if isJsWs c then
      if isJsWs d then collapseWs (d :: rest)
      else ' ' :: collapseWs (d :: rest)
    else c :: collapseWs (d :: rest)

/-- `normalizeLicenseToken` (licenseAudit.ts): trim, collapse internal
whitespace, uppercase (ASCII model of `toUpperCase`). -/
def normalizeLicenseToken (value : Str) : Str :=
  (collapseWs (jsTrim value)).map Char.toUpper

/-- One JS-`Map.set` step on an association list: replace the value at
an existing key in place, else append the binding. -/
def mapSet : List (Str × Str) → Str → Str → List (Str × Str)
  | [], k, v => [(k, v)]
  | (k', v') :: rest, k, v =>
    if k' = k then (k', v) :: rest else (k', v') :: mapSet rest k v

/-- JS-`Map.get` on an association list. -/
def mapGet : List (Str × Str) → Str → Option Str
  | [], _ => none
  | (k', v') :: rest, k => if k' = k then some v' else mapGet rest k

/-- The `normalizedAllows` map built by `auditLicenseEntries`:
`normalizeLicenseToken(rule) ↦ rule`, later duplicates overwriting. -/
def buildNormalizedAllows (allowRules : List Str) : List (Str × Str) :=
  allowRules.foldl (fun m rule => mapSet m (normalizeLicenseToken rule) rule) []

/-- `parseAllowValues` (licenseAudit.ts): split each value on commas,
trim, drop empties, then keep the first occurrence per normalized form. -/
def parseAllowValuesDedupe (seen : List Str) : List Str → List Str
  | [] => []
  | item :: rest =>
    let normalized := normalizeLicenseToken item
    if normalized ∈ seen then parseAllowValuesDedupe seen rest
    else item :: parseAllowValuesDedupe (normalized :: seen) rest

/-- Splitting one raw allow value on ',' (`value.split(',')`). -/
def splitOnComma (s : Str) : List Str :=
  s.foldr
    (fun c acc =>
      match acc with
      | [] => if c = ',' then [[], []] else [[c]]
      | cur :: done => if c = ',' then [] :: cur :: done else (c :: cur) :: done)
    [[]]

/-- `parseAllowValues` (licenseAudit.ts). -/
def parseAllowValues (values : List Str) : List Str :=
  let parsed := ((values.flatMap splitOnComma).map jsTrim).filter (fun v => v ≠ [])
  parseAllowValuesDedupe [] parsed

/-- `extractLicenseTokens` (licenseAudit.ts): the permissive fallback
tokenizer. Splits the trimmed string on `" OR "`, `" AND "`, `" WITH "`
(case-insensitive, whitespace-delimited) and on parenthesis characters,
trims and drops empty fragments; if nothing survives, the whole trimmed
string is the single token. -/
def matchKeywordSep (kw : Str) (s : Str) : Option Str :=
  let w := s.takeWhile isJsWs
  if w = [] then none
  else
    let rest := s.drop w.length
    if (rest.take kw.length).map Char.toUpper = kw then
      let after := rest.drop kw.length
      let w2 := after.takeWhile isJsWs
      if w2 = [] then none else some (after.drop w2.length)
    else none

/-- A separator of the fallback regex
`/\s+OR\s+|\s+AND\s+|\s+WITH\s+|[()]/gi` matched at the head of `s`:
returns the remainder after the separator. -/
def trySep (s : Str) : Option Str :=
  match s with
  | [] => none
  | c :: rest =>
    if c = '(' ∨ c = ')' then some rest
    else
      match matchKeywordSep ('O' :: ['R']) s with
      | some r => some r
      | none =>
        match matchKeywordSep ('A' :: 'N' :: ['D']) s with
        | some r => some r
        | none => matchKeywordSep ('W' :: 'I' :: 'T' :: ['H']) s

/-- The split loop of `extractLicenseTokens`, with fuel (each separator
consumes at least one character, so `s.length + 1` fuel is enough). -/
def regexSplitGo (cur : Str) : Nat → Str → List Str
  | _, [] => [cur.reverse]
  | 0, s => [(s.reverse ++ cur).reverse]
  | fuel + 1, c :: rest =>
    match trySep (c :: rest) with
    | some rem => cur.reverse :: regexSplitGo [] fuel rem
    | none => regexSplitGo (c :: cur) fuel rest

/-- `extractLicenseTokens` (licenseAudit.ts). -/
def extractLicenseTokens (licenseType : Str) : List Str :=
  let raw := jsTrim licenseType
  if raw = [] then []
  else
    let pieces := regexSplitGo [] (raw.length + 1) raw
    let split := (pieces.map jsTrim).filter (fun t => t ≠ [])
    if split ≠ [] then split else [raw]

/-- `LicenseEntry` (licensesReport.ts). -/
structure LicenseEntry where
  name : Str
  version : Str
  licenseType : Str
  url : Str
deriving DecidableEq, Repr

/-- `LicenseAuditStatus` (licenseAudit.ts). -/
inductive LicenseAuditStatus where
  | allowed
  | violation
deriving DecidableEq, Repr

/-- `LicenseAuditEntry` (licenseAudit.ts): a `LicenseEntry` plus the
audit outcome. -/
structure LicenseAuditEntry where
  name : Str
  version : Str
  licenseType : Str
  url : Str
  status : LicenseAuditStatus
  matchedAllowRule : Option Str
  detectedLicenseTokens : List Str
deriving DecidableEq, Repr

/-- `ExpressionNode` (licenseAudit.ts): the license-expression AST. -/
inductive ExpressionNode where
  | license (token : Str)
  | and (left right : ExpressionNode)
  | or (left right : ExpressionNode)
deriving DecidableEq, Repr

/-- `ParseResult` (licenseAudit.ts). -/
structure ParseResult where
  node : Option ExpressionNode
  tokens : List Str
deriving DecidableEq, Repr

/-- `ExpressionEvaluation` (licenseAudit.ts). -/
structure ExpressionEvaluation where
  allowed : Bool
  matchedAllowRule : Option Str
  detectedTokens : List Str
deriving DecidableEq, Repr

/-- `tokenizeExpression` (licenseAudit.ts): space out parentheses, then
split on whitespace (trim and the empties filter are absorbed by
`splitOnWs`, which returns exactly the non-empty fragments). -/
def tokenizeExpression (licenseType : Str) : List Str :=
  let spaced := licenseType.flatMap fun c =>
    if c = '(' then [' ', '(', ' ']
    else if c = ')' then [' ', ')', ' ']
    else [c]
  splitOnWs spaced

/-- `peekIsOperator` (licenseAudit.ts), on a present token. -/
def peekIsOperator (token : Str) (operator : Str) : Bool :=
  token.map Char.toUpper == operator

/-- `isOperatorToken` (licenseAudit.ts). -/
def isOperatorToken (token : Str) : Bool :=
  peekIsOperator token ('A' :: 'N' :: ['D']) || peekIsOperator token ('O' :: ['R'])

/-- `consumeLicenseToken` (licenseAudit.ts): the first token is already
consumed (`start`); keep consuming tokens until a parenthesis or an
operator, then join the parts with single spaces and trim. -/
def consumeLicenseToken (start : Str) : List Str → Str × List Str
  | [] => (jsTrim start, [])
  | t :: rest =>
    if t = ['('] ∨ t = [')'] ∨ peekIsOperator t ('A' :: 'N' :: ['D']) = true ∨
        peekIsOperator t ('O' :: ['R']) = true then
      (jsTrim start, t :: rest)
    else
      let (tok, rest') := consumeLicenseToken (start ++ ' ' :: t) rest
      (tok, rest')

/-!
The recursive-descent parser of `parseLicenseExpression`
(licenseAudit.ts), made functional: the cursor becomes the list of
remaining tokens, the mutable `detectedTokens` array becomes the
threaded accumulator `acc` (pushes made before a failure are irrelevant
because every failure propagates to the top, where the fallback path
ignores the accumulator, exactly as in the source).  The mutual
recursion through parenthesized groups is paid for with fuel; the
caller passes more fuel than any input can consume.
-/
mutual

/-- Grammar rule `Expr := AndExpr (OR AndExpr)*` (`parseOr`). -/
def parseOr : Nat → List Str → List Str → Option (ExpressionNode × List Str) × List Str
  | 0, _, acc => (none, acc)
  | fuel + 1, ts, acc =>
    match parseAnd fuel ts acc with
    | (none, acc') => (none, acc')
    | (some (node, rest), acc') => parseOrLoop fuel node rest acc'

/-- The `while (peekIsOperator(peek(), 'OR'))` loop of `parseOr`. -/
def parseOrLoop (fuel : Nat) (node : ExpressionNode) :
    List Str → List Str → Option (ExpressionNode × List Str) × List Str
  | ts, acc =>
    match fuel with
    | 0 => (none, acc)
    | fuel' + 1 =>
      match ts with
      | t :: rest =>
        if peekIsOperator t ('O' :: ['R']) then
          match parseAnd fuel' rest acc with
          | (none, acc') => (none, acc')
          | (some (right, rest'), acc') =>
            parseOrLoop fuel' (.or node right) rest' acc'
        else (some (node, ts), acc)
      | [] => (some (node, ts), acc)

/-- Grammar rule `AndExpr := Primary (AND Primary)*` (`parseAnd`). -/
def parseAnd : Nat → List Str → List Str → Option (ExpressionNode × List Str) × List Str
  | 0, _, acc => (none, acc)
  | fuel + 1, ts, acc =>
    match parsePrimary fuel ts acc with
    | (none, acc') => (none, acc')
    | (some (node, rest), acc') => parseAndLoop fuel node rest acc'

/-- The `while (peekIsOperator(peek(), 'AND'))` loop of `parseAnd`. -/
def parseAndLoop (fuel : Nat) (node : ExpressionNode) :
    List Str → List Str → Option (ExpressionNode × List Str) × List Str
  | ts, acc =>
    match fuel with
    | 0 => (none, acc)
    | fuel' + 1 =>
      match ts with
      | t :: rest =>
        if peekIsOperator t ('A' :: 'N' :: ['D']) then
          match parsePrimary fuel' rest acc with
          | (none, acc') => (none, acc')
          | (some (right, rest'), acc') =>
            parseAndLoop fuel' (.and node right) rest' acc'
        else (some (node, ts), acc)
      | [] => (some (node, ts), acc)

/-- Grammar rule `Primary := '(' Expr ')' | LicenseToken`
(`parsePrimary`). -/
def parsePrimary : Nat → List Str → List Str → Option (ExpressionNode × List Str) × List Str
  | 0, _, acc => (none, acc)
  | fuel + 1, ts, acc =>
    match ts with
    | [] => (none, acc)
    | t :: rest =>
      if t = ['('] then
        match parseOr fuel rest acc with
        | (none, acc') => (none, acc')
        | (some (nested, rest'), acc') =>
          match rest' with
          | r :: rest'' =>
            if r = [')'] then (some (nested, rest''), acc') else (none, acc')
          | [] => (none, acc')
      else if t = [')'] ∨ isOperatorToken t = true then (none, acc)
      else
        let (licenseToken, rest') := consumeLicenseToken t rest
        (some (.license licenseToken, rest'), acc ++ [licenseToken])

end

/-- `dedupeTokens` (licenseAudit.ts): keep the first occurrence per
case/whitespace-normalized form. -/
def dedupeTokensGo (seen : List Str) : List Str → List Str
  | [] => []
  | t :: rest =>
    let normalized := normalizeLicenseToken t
    if normalized ∈ seen then dedupeTokensGo seen rest
    else t :: dedupeTokensGo (normalized :: seen) rest

/-- `dedupeTokens` (licenseAudit.ts). -/
def dedupeTokens (tokens : List Str) : List Str := dedupeTokensGo [] tokens

/-- `parseLicenseExpression` (licenseAudit.ts): tokenize, run the
recursive-descent parser; on failure or leftover tokens fall back to
`extractLicenseTokens`.  The fuel bound exceeds what the parser can
consume (each unit of nesting or iteration consumes a token). -/
def parseLicenseExpression (licenseType : Str) : ParseResult :=
  let inputTokens := tokenizeExpression licenseType
  if inputTokens = [] then ⟨none, []⟩
  else
    match parseOr (2 * inputTokens.length + 2) inputTokens [] with
    | (some (rootNode, []), acc) => ⟨some rootNode, dedupeTokens acc⟩
    | _ => ⟨none, extractLicenseTokens licenseType⟩

/-- `evaluateExpressionNode` (licenseAudit.ts).  A leaf is allowed iff
its normalized form is in the allow map; `Boolean(matched)` is falsy
for the empty string, hence the explicit emptiness test. `AND`
short-circuits on a disallowed left operand and surfaces the left
operand's matched rule when both are allowed (`??` prefers the left);
`OR` returns the left evaluation whenever it is allowed. -/
def evaluateExpressionNode (normalizedAllows : List (Str × Str)) :
    ExpressionNode → Bool × Option Str
  | .license token =>
    match mapGet normalizedAllows (normalizeLicenseToken token) with
    | some matched => (matched ≠ [], some matched)
    | none => (false, none)
  | .and left right =>
    let l := evaluateExpressionNode normalizedAllows left
    if l.1 = false then (false, none)
    else
      let r := evaluateExpressionNode normalizedAllows right
      if r.1 = false then (false, none)
      else
        (true, match l.2 with
          | some m => some m
          | none => r.2)
  | .or left right =>
    let l := evaluateExpressionNode normalizedAllows left
    if l.1 = true then l
    else evaluateExpressionNode normalizedAllows right

/-- `evaluateLicenseExpression` (licenseAudit.ts). -/
def evaluateLicenseExpression (licenseType : Str)
    (normalizedAllows : List (Str × Str)) : ExpressionEvaluation :=
  let parsed := parseLicenseExpression licenseType
  match parsed.node with
  | none => ⟨false, none, parsed.tokens⟩
  | some node =>
    let evaluated := evaluateExpressionNode normalizedAllows node
    ⟨evaluated.1, evaluated.2, parsed.tokens⟩

/-- `auditLicenseEntries` (licenseAudit.ts). -/
def auditLicenseEntries (entries : List LicenseEntry) (allowRules : List Str) :
    List LicenseAuditEntry :=
  let normalizedAllows := buildNormalizedAllows allowRules
  entries.map fun entry =>
    let evaluation := evaluateLicenseExpression entry.licenseType normalizedAllows
    { name := entry.name
      version := entry.version
      licenseType := entry.licenseType
      url := entry.url
      status := if evaluation.allowed then .allowed else .violation
      matchedAllowRule := evaluation.matchedAllowRule
      detectedLicenseTokens := evaluation.detectedTokens }

/-- `hasAuditViolations` (licenseAudit.ts). -/
def hasAuditViolations (entries : List LicenseAuditEntry) : Bool :=
  entries.any fun entry => entry.status = .violation

/-- `getAuditViolations` (licenseAudit.ts). -/
def getAuditViolations (entries : List LicenseAuditEntry) : List LicenseAuditEntry :=
  entries.filter fun entry => entry.status = .violation

/-!
Repository URL canonicalizer, from `src/lib/urlNormalization.ts`.
-/

/-- The `unknown` input of `normalizeRepositoryUrl`: a string, an
object with an optional string `url` field, or anything else. -/
inductive JsRepositoryValue where
  | str (s : Str)
  | objWithUrl (url : Option Str)
  | other
deriving DecidableEq, Repr

/-- `extractUrl` (urlNormalization.ts). -/
def extractUrl : JsRepositoryValue → Option Str
  | .str s => some s
  | .objWithUrl (some candidate) => some candidate
  | _ => none

/-- `input.startsWith(p)` on character lists. -/
def strStartsWith (s p : Str) : Bool := s.take p.length == p

/-- The regex `/^([^/@:\s]+)\/([^#\s]+)$/` of `toHttps`: a non-empty
run without `/ @ :` or whitespace, a slash, then a non-empty remainder
without `#` or whitespace (the leading class cannot shrink past a
non-slash character, so the first group is exactly the maximal run). -/
def githubShortcutMatch (input : Str) : Option (Str × Str) :=
  let owner := input.takeWhile fun c =>
    ¬ (c = '/' ∨ c = '@' ∨ c = ':' ∨ isJsWs c = true)
  match input.drop owner.length with
  | '/' :: repo =>
    if owner ≠ [] ∧ repo ≠ [] ∧ repo.all (fun c => c ≠ '#' ∧ isJsWs c = false) then
      some (owner, repo)
    else none
  | _ => none

/-- The regex `/^git@([^:]+):(.+)$/` of `toHttps`: after `git@`, a
non-empty colon-free host, a colon, then a non-empty path (`.`
does not match a newline). -/
def sshLikeMatch (input : Str) : Option (Str × Str) :=
  if strStartsWith input ('g' :: 'i' :: 't' :: ['@']) then
    let rest := input.drop 4
    let host := rest.takeWhile (fun c => c ≠ ':')
    match rest.drop host.length with
    | ':' :: path =>
      if host ≠ [] ∧ path ≠ [] ∧ path.all (fun c => c ≠ '\n') then
        some (host, path)
      else none
    | _ => none
  else none

/-- `toHttps` (urlNormalization.ts): dialect normalization to an
`https://host/path` form; unrecognized inputs pass through. -/
def toHttps (input : Str) : Str :=
  match githubShortcutMatch input with
  | some (owner, repo) =>
    ('h' :: 't' :: 't' :: 'p' :: 's' :: ':' :: '/' :: '/' :: 'g' :: 'i' :: 't' ::
      'h' :: 'u' :: 'b' :: '.' :: 'c' :: 'o' :: 'm' :: ['/']) ++ owner ++ '/' :: repo
  | none =>
    if strStartsWith input ('g' :: 'i' :: 't' :: 'h' :: 'u' :: 'b' :: [':']) then
      ('h' :: 't' :: 't' :: 'p' :: 's' :: ':' :: '/' :: '/' :: 'g' :: 'i' :: 't' ::
        'h' :: 'u' :: 'b' :: '.' :: 'c' :: 'o' :: 'm' :: ['/']) ++ input.drop 7
    else
      match sshLikeMatch input with
      | some (host, path) =>
        ('h' :: 't' :: 't' :: 'p' :: 's' :: ':' :: '/' :: ['/']) ++ host ++ '/' :: path
      | none =>
        if strStartsWith input
            ('s' :: 's' :: 'h' :: ':' :: '/' :: '/' :: 'g' :: 'i' :: 't' :: ['@']) then
          ('h' :: 't' :: 't' :: 'p' :: 's' :: ':' :: '/' :: ['/']) ++ input.drop 10
        else if strStartsWith input ('g' :: 'i' :: 't' :: ':' :: '/' :: ['/']) then
          ('h' :: 't' :: 't' :: 'p' :: 's' :: ':' :: '/' :: ['/']) ++ input.drop 6
        else input

/-- `base.startsWith('git+') ? base.slice(4) : base`. -/
def stripGitPlus (base : Str) : Str :=
  if strStartsWith base ('g' :: 'i' :: 't' :: ['+']) then base.drop 4 else base

/-- `.replace(/\.git$/i, '')` (its input never ends in a newline here,
so `$` is the true end of the string). -/
def stripDotGitSuffix (s : Str) : Str :=
  if s.length ≥ 4 ∧
      (s.drop (s.length - 4)).map Char.toLower = ('.' :: 'g' :: 'i' :: ['t']) then
    s.take (s.length - 4)
  else s

/-- `.replace(/\/$/, '')` (same remark about `$`). -/
def stripTrailingSlash (s : Str) : Str :=
  if s ≠ [] ∧ s.drop (s.length - 1) = ['/'] then s.take (s.length - 1) else s

/-- `normalizeRepositoryUrl` (urlNormalization.ts): extract the raw
url, trim, split off the `#` fragment, strip `git+`, normalize the
dialect, strip a `.git` suffix and a trailing slash, reattach the
fragment. -/
def normalizeRepositoryUrl (input : JsRepositoryValue) : Option Str :=
  match extractUrl input with
  | none => none
  | some raw =>
    let trimmed := jsTrim raw
    if trimmed = [] then none
    else
      let base := trimmed.takeWhile (fun c => c ≠ '#')
      let fragment := trimmed.drop base.length
      let withoutGitPlus := stripGitPlus base
      let https := toHttps withoutGitPlus
      let withoutGitSuffix := stripDotGitSuffix https
      let withoutTrailingSlash := stripTrailingSlash withoutGitSuffix
      some (withoutTrailingSlash ++ fragment)

/-!
Dependency reachability collector, from `licensesReport.ts`
(`collectExternalLocatorHashes`, `getWorkspaceDependencyDescriptors`).

Locator hashes and descriptor hashes are opaque identifiers, embedded
as `Nat`.  A yarn `Package` is identified by its locator hash: the
`storedPackages` map is keyed by it, and `tryWorkspaceByLocator` tests
the locator identity, so the membership test is embedded as a lookup
keyed by the resolved hash.  `configuration.normalizeDependency` is an
external collaborator and becomes an opaque function field.
-/

/-- A resolved external package record: its dependency descriptors'
hashes (`pkg.dependencies.values()`, each used via `descriptorHash`). -/
structure Pkg where
  dependencies : List Nat
deriving DecidableEq, Repr

/-- A workspace: its root path key (`cwd`) and its manifest dependency
and dev-dependency descriptor hashes. -/
structure Workspace where
  cwd : Nat
  dependencies : List Nat
  devDependencies : List Nat
deriving DecidableEq, Repr

/-- The project snapshot queried by the collector (§6 collaborators):
resolution table, package store, workspace membership test, and the
host `normalizeDependency` function. -/
structure Project where
  storedResolutions : List (Nat × Nat)
  storedPackages : List (Nat × Pkg)
  workspaceByLocator : List (Nat × Workspace)
  normalizeDependency : Nat → Nat

/-- JS-`Map.get` for an association list with `Nat` keys. -/
def natMapGet {α : Type} : List (Nat × α) → Nat → Option α
  | [], _ => none
  | (k', v') :: rest, k => if k' = k then some v' else natMapGet rest k

/-- `Set.add` on an insertion-ordered duplicate-free list. -/
def addUnique (l : List Nat) (x : Nat) : List Nat :=
  if x ∈ l then l else l ++ [x]

/-- `getWorkspaceDependencyDescriptors` (licensesReport.ts): direct
dependencies, plus dev dependencies iff `includeDev`, each passed
through `normalizeDependency`. -/
def getWorkspaceDependencyDescriptors (project : Project) (workspace : Workspace)
    (includeDev : Bool) : List Nat :=
  workspace.dependencies.map project.normalizeDependency ++
    if includeDev then workspace.devDependencies.map project.normalizeDependency else []

/-- The two kinds of frontier items of the work queue. -/
inductive QueueItem where
  | workspace (w : Workspace)
  | locator (locatorHash : Nat)
deriving DecidableEq

/-- The collector's mutable state: the FIFO queue and the two visited
sets plus the result set, all insertion-ordered. -/
structure CollectState where
  queue : List QueueItem
  visitedWorkspaceCwds : List Nat
  visitedLocatorHashes : List Nat
  external : List Nat

/-- The `for (const descriptor of descriptors)` loop of the workspace
branch: resolve each descriptor, skip unresolved ones and missing
package records, enqueue resolved workspaces iff `recursiveWorkspaces`,
add resolved external packages to the result and enqueue them iff
`recursiveNpm` and not yet visited.  Returns the queued items (in push
order) and the updated result set. -/
def processWorkspaceDescriptors (project : Project)
    (recursiveWorkspaces recursiveNpm : Bool) (visitedLocatorHashes : List Nat) :
    List Nat → List Nat → List QueueItem × List Nat
  | [], external => ([], external)
  | descriptor :: rest, external =>
    match natMapGet project.storedResolutions descriptor with
    | none => processWorkspaceDescriptors project recursiveWorkspaces recursiveNpm
        visitedLocatorHashes rest external
    | some resolution =>
      match natMapGet project.storedPackages resolution with
      | none => processWorkspaceDescriptors project recursiveWorkspaces recursiveNpm
          visitedLocatorHashes rest external
      | some _resolvedPackage =>
        match natMapGet project.workspaceByLocator resolution with
        | some resolvedWorkspace =>
          let (pushes, external') := processWorkspaceDescriptors project
            recursiveWorkspaces recursiveNpm visitedLocatorHashes rest external
          if recursiveWorkspaces then
            (QueueItem.workspace resolvedWorkspace :: pushes, external')
          else (pushes, external')
        | none =>
          let external₁ := addUnique external resolution
          let (pushes, external') := processWorkspaceDescriptors project
            recursiveWorkspaces recursiveNpm visitedLocatorHashes rest external₁
          if recursiveNpm ∧ resolution ∉ visitedLocatorHashes then
            (QueueItem.locator resolution :: pushes, external')
          else (pushes, external')

/-- The `for (const descriptor of pkg.dependencies.values())` loop of
the locator branch (runs only under `recursiveNpm`): like the workspace
branch but without `normalizeDependency`, and locator pushes are
guarded only by the visited set. -/
def processLocatorDeps (project : Project) (recursiveWorkspaces : Bool)
    (visitedLocatorHashes : List Nat) :
    List Nat → List Nat → List QueueItem × List Nat
  | [], external => ([], external)
  | descriptor :: rest, external =>
    match natMapGet project.storedResolutions descriptor with
    | none => processLocatorDeps project recursiveWorkspaces visitedLocatorHashes
        rest external
    | some resolution =>
      match natMapGet project.storedPackages resolution with
      | none => processLocatorDeps project recursiveWorkspaces visitedLocatorHashes
          rest external
      | some _resolvedPackage =>
        match natMapGet project.workspaceByLocator resolution with
        | some resolvedWorkspace =>
          let (pushes, external') := processLocatorDeps project recursiveWorkspaces
            visitedLocatorHashes rest external
          if recursiveWorkspaces then
            (QueueItem.workspace resolvedWorkspace :: pushes, external')
          else (pushes, external')
        | none =>
          let external₁ := addUnique external resolution
          let (pushes, external') := processLocatorDeps project recursiveWorkspaces
            visitedLocatorHashes rest external₁
          if resolution ∉ visitedLocatorHashes then
            (QueueItem.locator resolution :: pushes, external')
          else (pushes, external')

/-- One `while (queue.length > 0)` iteration plus the tail of the loop,
with fuel (the top-level call passes enough fuel to drain the queue;
see `collectFuel` and the termination lemmas).  Pops the queue head,
dispatches on its kind, and appends pushes at the back (FIFO). -/
def collectGo (project : Project) (includeDev recursiveWorkspaces recursiveNpm : Bool) :
    Nat → CollectState → CollectState
  | 0, s => s
  | _fuel + 1, ⟨[], vw, vl, external⟩ => ⟨[], vw, vl, external⟩
  | fuel + 1, ⟨node :: rest, vw, vl, external⟩ =>
    match node with
    | .workspace w =>
      if w.cwd ∈ vw then
        collectGo project includeDev recursiveWorkspaces recursiveNpm fuel
          ⟨rest, vw, vl, external⟩
      else
        let descriptors := getWorkspaceDependencyDescriptors project w includeDev
        let (pushes, external') := processWorkspaceDescriptors project
          recursiveWorkspaces recursiveNpm vl descriptors external
        collectGo project includeDev recursiveWorkspaces recursiveNpm fuel
          ⟨rest ++ pushes, vw ++ [w.cwd], vl, external'⟩
    | .locator locatorHash =>
      if locatorHash ∈ vl then
        collectGo project includeDev recursiveWorkspaces recursiveNpm fuel
          ⟨rest, vw, vl, external⟩
      else
        let vl' := vl ++ [locatorHash]
        match natMapGet project.storedPackages locatorHash with
        | none =>
          collectGo project includeDev recursiveWorkspaces recursiveNpm fuel
            ⟨rest, vw, vl', external⟩
        | some pkg =>
          if recursiveNpm = false then
            collectGo project includeDev recursiveWorkspaces recursiveNpm fuel
              ⟨rest, vw, vl', external⟩
          else
            let (pushes, external') := processLocatorDeps project recursiveWorkspaces
              vl' pkg.dependencies external
            collectGo project includeDev recursiveWorkspaces recursiveNpm fuel
              ⟨rest ++ pushes, vw, vl', external'⟩

/-- The distinct workspace-path universe the traversal can ever visit:
seed paths plus the paths of workspaces in the membership table. -/
def cwdUniverse (project : Project) (workspaces : List Workspace) : List Nat :=
  (workspaces.map Workspace.cwd ++
    project.workspaceByLocator.map fun p => p.2.cwd).dedup

/-- The distinct locator-hash universe the traversal can ever visit:
every value of the resolution table. -/
def locatorUniverse (project : Project) : List Nat :=
  (project.storedResolutions.map fun p => p.2).dedup

/-- An upper bound on how many items one visit can push: the largest
dependency-descriptor count over all workspaces and packages. -/
def maxFanout (project : Project) (workspaces : List Workspace) : Nat :=
  ((workspaces ++ project.workspaceByLocator.map fun p => p.2).map fun w =>
      w.dependencies.length + w.devDependencies.length).foldr max
    ((project.storedPackages.map fun p => p.2.dependencies.length).foldr max 0)

/-- Fuel that provably drains the queue: each iteration either pops a
duplicate (shrinking the queue) or visits a fresh universe element
(of which there are finitely many), pushing at most `maxFanout` items. -/
def collectFuel (project : Project) (workspaces : List Workspace) : Nat :=
  (cwdUniverse project workspaces).length * (maxFanout project workspaces + 1) +
    (locatorUniverse project).length * (maxFanout project workspaces + 1) +
    workspaces.length + 1

/-- `collectExternalLocatorHashes` (licensesReport.ts): seed the queue
with one workspace item per seed, run the traversal, return the
external result set. -/
def collectExternalLocatorHashes (project : Project) (workspaces : List Workspace)
    (includeDev recursiveWorkspaces recursiveNpm : Bool) : List Nat :=
  (collectGo project includeDev recursiveWorkspaces recursiveNpm
    (collectFuel project workspaces)
    ⟨workspaces.map QueueItem.workspace, [], [], []⟩).external

/-!
Bounded-fanout mapper, from `licensesReport.ts` (`mapWithConcurrency`),
under the spec's single-threaded cooperative scheduling model (§5):
each worker is a suspended task; the only suspension point is the
`await mapper(...)` call, so the read-increment of the shared cursor
is atomic.  A schedule is the list of worker indices the event loop
resumes, one step at a time; the omit marker `null` becomes `none`.
-/

/-- A logical worker of `mapWithConcurrency`: ready to claim the next
index, suspended on the mapper call for a claimed index, or finished. -/
inductive WorkerStatus where
  | ready
  | awaiting (index : Nat)
  | done
deriving DecidableEq, Repr

/-- The shared state of one `mapWithConcurrency` run: the input cursor
`nextIndex`, the result collection (in completion order), the log of
claimed indices (in claim order, for the exactly-once property), and
each worker's status. -/
structure MapRunState (U : Type) where
  nextIndex : Nat
  result : List U
  claimLog : List Nat
  workers : List WorkerStatus
deriving DecidableEq, Repr

/-- `Math.min(Math.max(1, Math.floor(concurrency)), items.length)`:
the number of workers started (`Array.from({length: …})`).  The
JS number is modelled as an integer, `Math.floor` of which is itself. -/
def mapWorkerCount {T : Type} (items : List T) (concurrency : Int) : Nat :=
  min (max 1 concurrency).toNat items.length

/-- The initial state: cursor at 0, empty result, all workers ready. -/
def mapRunInit {T U : Type} (items : List T) (concurrency : Int) : MapRunState U :=
  ⟨0, [], [], List.replicate (mapWorkerCount items concurrency) .ready⟩

/-- One cooperative step: resume worker `k`.  A ready worker runs the
`while (nextIndex < items.length)` check; inside, it claims
`currentIndex` and increments `nextIndex` atomically (no suspension
between the two), skips a missing item (`currentItem === undefined`),
and otherwise suspends on the mapper; when the check fails it returns
(worker done).  A suspended worker resumes from the `await`, pushes a
non-`null` mapped value, and loops back to ready.  Resuming a finished
or nonexistent worker changes nothing. -/
def mapRunStep {T U : Type} (items : List T) (mapper : T → Option U)
    (s : MapRunState U) (k : Nat) : MapRunState U :=
  match s.workers.get? k with
  | some .ready =>
    if s.nextIndex < items.length then
      let currentIndex := s.nextIndex
      match items.get? currentIndex with
      | none =>
        { s with nextIndex := currentIndex + 1, claimLog := s.claimLog ++ [currentIndex] }
      | some _ =>
        { s with
            nextIndex := currentIndex + 1
            claimLog := s.claimLog ++ [currentIndex]
            workers := s.workers.set k (.awaiting currentIndex) }
    else { s with workers := s.workers.set k .done }
  | some (.awaiting index) =>
    let mapped := (items.get? index).bind mapper
    { s with
        result := s.result ++ mapped.toList
        workers := s.workers.set k .ready }
  | _ => s

/-- Run a whole schedule from the initial state. -/
def mapRunTrace {T U : Type} (items : List T) (mapper : T → Option U)
    (concurrency : Int) (trace : List Nat) : MapRunState U :=
  trace.foldl (mapRunStep items mapper) (mapRunInit items concurrency)

/-- `Promise.all(workers)` has resolved: every worker returned. -/
def allWorkersDone {U : Type} (s : MapRunState U) : Prop :=
  ∀ w ∈ s.workers, w = WorkerStatus.done

instance {U : Type} (s : MapRunState U) : Decidable (allWorkersDone s) :=
  List.decidableBAll _ s.workers

/-- Run invariant of the mapper: the worker pool has the started size;
the cursor never passes the input length; the claim log is exactly the
indices below the cursor, in claim order (each index claimed once,
none skipped); a finished worker means the input was exhausted; and
every claimed index is either in flight (some worker awaits its mapper
call) or processed, with the result holding exactly the non-omitted
mapped values of the processed indices. -/
def MapRunInv {T U : Type} (items : List T) (mapper : T → Option U)
    (concurrency : Int) (s : MapRunState U) : Prop :=
  s.workers.length = mapWorkerCount items concurrency ∧
  s.nextIndex ≤ items.length ∧
  s.claimLog = List.range s.nextIndex ∧
  ((∃ w ∈ s.workers, w = WorkerStatus.done) → s.nextIndex = items.length) ∧
  ∃ processed : List Nat,
    ((s.workers.filterMap fun w => match w with
        | WorkerStatus.awaiting i => some i
        | _ => none : Multiset Nat)) + (processed : Multiset Nat) =
      (List.range s.nextIndex : Multiset Nat) ∧
    (s.result : Multiset U) =
      ((processed.filterMap fun i => (items.get? i).bind mapper : List U) : Multiset U)

/-!
Specification-side predicates for the collector claims.
-/

/-- Every workspace value the traversal can ever handle: the seeds and
the values of the workspace-membership table. -/
def workspaceOccurs (project : Project) (seeds : List Workspace) : List Workspace :=
  seeds ++ project.workspaceByLocator.map fun p => p.2

/-- The snapshot well-formedness the traversal's path-keyed visited set
relies on: distinct workspaces of one project never share a root path
(`cwd`).  Real yarn projects satisfy this by construction. -/
def CwdInjective (project : Project) (seeds : List Workspace) : Prop :=
  ∀ w ∈ workspaceOccurs project seeds, ∀ w' ∈ workspaceOccurs project seeds,
    w.cwd = w'.cwd → w = w'

instance (project : Project) (seeds : List Workspace) :
    Decidable (CwdInjective project seeds) := by
  unfold CwdInjective
  infer_instance

/-- Declarative reachability for `collectExternalLocatorHashes`:
`Reach … (.workspace w)` means the traversal must visit workspace `w`,
`Reach … (.locator h)` means `h` must be in the external result set.
The constructors transcribe the five ways the loop discovers nodes. -/
inductive Reach (project : Project) (seeds : List Workspace)
    (includeDev recursiveWorkspaces recursiveNpm : Bool) : QueueItem → Prop where
  | seed {w : Workspace} : w ∈ seeds →
      Reach project seeds includeDev recursiveWorkspaces recursiveNpm (.workspace w)
  | wsToWs {w : Workspace} {d h : Nat} {p : Pkg} {w' : Workspace} :
      Reach project seeds includeDev recursiveWorkspaces recursiveNpm (.workspace w) →
      recursiveWorkspaces = true →
      d ∈ getWorkspaceDependencyDescriptors project w includeDev →
      natMapGet project.storedResolutions d = some h →
      natMapGet project.storedPackages h = some p →
      natMapGet project.workspaceByLocator h = some w' →
      Reach project seeds includeDev recursiveWorkspaces recursiveNpm (.workspace w')
  | wsToExt {w : Workspace} {d h : Nat} {p : Pkg} :
      Reach project seeds includeDev recursiveWorkspaces recursiveNpm (.workspace w) →
      d ∈ getWorkspaceDependencyDescriptors project w includeDev →
      natMapGet project.storedResolutions d = some h →
      natMapGet project.storedPackages h = some p →
      natMapGet project.workspaceByLocator h = none →
      Reach project seeds includeDev recursiveWorkspaces recursiveNpm (.locator h)
  | extToWs {h : Nat} {p : Pkg} {d h' : Nat} {p' : Pkg} {w' : Workspace} :
      recursiveNpm = true → recursiveWorkspaces = true →
      Reach project seeds includeDev recursiveWorkspaces recursiveNpm (.locator h) →
      natMapGet project.storedPackages h = some p →
      d ∈ p.dependencies →
      natMapGet project.storedResolutions d = some h' →
      natMapGet project.storedPackages h' = some p' →
      natMapGet project.workspaceByLocator h' = some w' →
      Reach project seeds includeDev recursiveWorkspaces recursiveNpm (.workspace w')
  | extToExt {h : Nat} {p : Pkg} {d h' : Nat} {p' : Pkg} :
      recursiveNpm = true →
      Reach project seeds includeDev recursiveWorkspaces recursiveNpm (.locator h) →
      natMapGet project.storedPackages h = some p →
      d ∈ p.dependencies →
      natMapGet project.storedResolutions d = some h' →
      natMapGet project.storedPackages h' = some p' →
      natMapGet project.workspaceByLocator h' = none →
      Reach project seeds includeDev recursiveWorkspaces recursiveNpm (.locator h')

/-- The set claim C2 describes: external (non-workspace) locators that
the seed workspaces' direct dependency descriptors resolve to through
the resolution table (classifying a locator needs its package record,
which the traversal also requires). -/
def firstDepthExternalLocator (project : Project) (seeds : List Workspace)
    (h : Nat) : Prop :=
  ∃ w ∈ seeds, ∃ d ∈ w.dependencies.map project.normalizeDependency,
    natMapGet project.storedResolutions d = some h ∧
    (∃ p, natMapGet project.storedPackages h = some p) ∧
    natMapGet project.workspaceByLocator h = none

/-- Queue items the traversal can legitimately hold: workspace items
carry an occurring workspace, locator items a resolution-table value. -/
def ItemWF (project : Project) (seeds : List Workspace) : QueueItem → Prop
  | .workspace w => w ∈ workspaceOccurs project seeds
  | .locator h => h ∈ locatorUniverse project

/-- Termination measure of the collector loop: unvisited universe
elements weighted by the push bound, plus the queue length. -/
def collectMeasure (project : Project) (seeds : List Workspace)
    (s : CollectState) : Nat :=
  (((cwdUniverse project seeds).filter fun c => c ∉ s.visitedWorkspaceCwds).length +
      ((locatorUniverse project).filter fun h => h ∉ s.visitedLocatorHashes).length) *
    (maxFanout project seeds + 1) + s.queue.length

/-- Post-state obligations of a visited workspace `w` (relative to a
final state `F`): every resolved dependency target is accounted for —
a workspace target is visited when `recursiveWorkspaces` is on, an
external target is in the result set and, under `recursiveNpm`, in the
visited-locator set. -/
def WsContribOK (project : Project) (includeDev recursiveWorkspaces recursiveNpm : Bool)
    (F : CollectState) (w : Workspace) : Prop :=
  ∀ d ∈ getWorkspaceDependencyDescriptors project w includeDev, ∀ h : Nat, ∀ p : Pkg,
    natMapGet project.storedResolutions d = some h →
    natMapGet project.storedPackages h = some p →
    (∀ w' : Workspace, natMapGet project.workspaceByLocator h = some w' →
      recursiveWorkspaces = true → w'.cwd ∈ F.visitedWorkspaceCwds) ∧
    (natMapGet project.workspaceByLocator h = none →
      h ∈ F.external ∧ (recursiveNpm = true → h ∈ F.visitedLocatorHashes))

/-- Post-state obligations of a visited locator `h` (relative to a
final state `F`), meaningful only under `recursiveNpm`. -/
def LocContribOK (project : Project) (recursiveWorkspaces : Bool)
    (F : CollectState) (h : Nat) : Prop :=
  ∀ p : Pkg, natMapGet project.storedPackages h = some p →
    ∀ d ∈ p.dependencies, ∀ h' : Nat, ∀ p' : Pkg,
      natMapGet project.storedResolutions d = some h' →
      natMapGet project.storedPackages h' = some p' →
      (∀ w' : Workspace, natMapGet project.workspaceByLocator h' = some w' →
        recursiveWorkspaces = true → w'.cwd ∈ F.visitedWorkspaceCwds) ∧
      (natMapGet project.workspaceByLocator h' = none →
        h' ∈ F.external ∧ h' ∈ F.visitedLocatorHashes)

/-!
Theorems.  First general-purpose list/string lemmas, then the claims.
-/

theorem takeWhile_append_drop_length (p : Char → Bool) (l : Str) :
    l.takeWhile p ++ l.drop (l.takeWhile p).length = l := by
  induction l with
  | nil => rfl
  | cons c t ih =>
    by_cases h : p c
    · simp [List.takeWhile_cons, h, ih]
    · simp [List.takeWhile_cons, h]

/-- C1: an entry whose licenseType is a conjunction `A AND B` is
allowed by `auditLicenseEntries` iff both conjunct operands are
allowed: the evaluator makes an `AND` node allowed exactly when both
operands are, and concretely `"GPL-3.0 AND MIT"` with allow-list
`["MIT"]` (one allowed conjunct) audits as a violation, while with
allow-list `["MIT", "GPL-3.0"]` (both allowed) it audits as allowed. -/
theorem audit_and_allowed_iff_both_operands :
    (∀ (normalizedAllows : List (Str × Str)) (l r : ExpressionNode),
      (evaluateExpressionNode normalizedAllows (.and l r)).1 = true ↔
        ((evaluateExpressionNode normalizedAllows l).1 = true ∧
          (evaluateExpressionNode normalizedAllows r).1 = true)) ∧
    (auditLicenseEntries
        [⟨"pkg".toList, "1.0.0".toList, "GPL-3.0 AND MIT".toList, []⟩]
        ["MIT".toList]).map (fun e => e.status) = [.violation] ∧
    (auditLicenseEntries
        [⟨"pkg".toList, "1.0.0".toList, "GPL-3.0 AND MIT".toList, []⟩]
        ["MIT".toList, "GPL-3.0".toList]).map (fun e => e.status) = [.allowed] := by
  refine ⟨fun normalizedAllows l r => ?_, by decide, by decide⟩
  cases hl : (evaluateExpressionNode normalizedAllows l).1 <;>
    cases hr : (evaluateExpressionNode normalizedAllows r).1 <;>
      simp [evaluateExpressionNode, hl, hr]

/-- C4 (code bug): on the failing input
`"ssh://git@github.com:org/repo.git"` the code keeps the colon segment
verbatim and returns `"https://github.com:org/repo"`, not the
`"https://github.com/org/repo"` that the spec and the repository's own
unit test (`normalizes ssh://git@host:owner/repo syntax`) demand: the
`ssh://git@` branch of `toHttps` never converts a non-numeric
post-colon segment into a path separator. -/
theorem toHttps_ssh_colon_kept_at_failing_input :
    normalizeRepositoryUrl (.str ("ssh://git@github.com:org/repo.git".toList)) =
      some ("https://github.com:org/repo".toList) ∧
    normalizeRepositoryUrl (.str ("ssh://git@github.com:org/repo.git".toList)) ≠
      some ("https://github.com/org/repo".toList) :=
  ⟨by decide, by decide⟩

/-- C6 (counterexample): `normalizeRepositoryUrl` is not idempotent on
every string: the input `"https://github.com/org/repo.git.git"`
canonicalizes to `"https://github.com/org/repo.git"`, and applying the
function to that non-null output strips a further `.git` instead of
returning it unchanged. -/
theorem normalizeRepositoryUrl_not_idempotent_cex :
    normalizeRepositoryUrl (.str ("https://github.com/org/repo.git.git".toList)) =
      some ("https://github.com/org/repo.git".toList) ∧
    normalizeRepositoryUrl (.str ("https://github.com/org/repo.git".toList)) =
      some ("https://github.com/org/repo".toList) ∧
    ("https://github.com/org/repo.git".toList : Str) ≠
      "https://github.com/org/repo".toList :=
  ⟨by decide, by decide, by decide⟩

/-- C6 (amended): `normalizeRepositoryUrl` is idempotent on every
canonical-form output: whenever a string is non-empty, trim-stable, and
its base (the part before the first `#`) is a fixed point of each
pipeline stage (no `git+` to strip, dialect normalization leaves it
unchanged, no trailing `.git` and no trailing slash), the function maps
it to itself.  Outputs that still end in `.git` or `/`, start with
`git+`, or collapse to the empty string get transformed again, which is
what the counterexample exhibits. -/
theorem normalizeRepositoryUrl_idempotent_on_canonical_outputs (y : Str)
    (hne : y ≠ [])
    (htrim : jsTrim y = y)
    (hplus : stripGitPlus (y.takeWhile fun c => c ≠ '#') = y.takeWhile fun c => c ≠ '#')
    (hdialect : toHttps (y.takeWhile fun c => c ≠ '#') = y.takeWhile fun c => c ≠ '#')
    (hgit : stripDotGitSuffix (y.takeWhile fun c => c ≠ '#') = y.takeWhile fun c => c ≠ '#')
    (hslash : stripTrailingSlash (y.takeWhile fun c => c ≠ '#') = y.takeWhile fun c => c ≠ '#') :
    normalizeRepositoryUrl (.str y) = some y := by
  simp only [normalizeRepositoryUrl, extractUrl, htrim, if_neg hne, hplus, hdialect, hgit,
    hslash]
  exact congrArg some (takeWhile_append_drop_length _ y)

/-- C6 (witness): the canonical-form conditions hold at the concrete
output `"https://github.com/org/repo#main"`, and the amended theorem
then gives idempotence there. -/
theorem normalizeRepositoryUrl_idempotent_witness :
    normalizeRepositoryUrl (.str ("https://github.com/org/repo#main".toList)) =
      some ("https://github.com/org/repo#main".toList) :=
  normalizeRepositoryUrl_idempotent_on_canonical_outputs
    ("https://github.com/org/repo#main".toList) (by decide) (by decide) (by decide)
    (by decide) (by decide) (by decide)

theorem mapGet_mem {m : List (Str × Str)} {k v : Str} (h : mapGet m k = some v) :
    (k, v) ∈ m := by
  induction m with
  | nil => simp [mapGet] at h
  | cons p rest ih =>
    simp only [mapGet] at h
    split at h
    · obtain ⟨rfl⟩ := Option.some.inj h
      simp_all [Prod.ext_iff]
    · exact List.mem_cons_of_mem _ (ih h)

theorem mem_mapSet {m : List (Str × Str)} {k r : Str} {p : Str × Str}
    (h : p ∈ mapSet m k r) : p.2 = r ∨ p ∈ m := by
  induction m with
  | nil => simp only [mapSet, List.mem_singleton] at h; simp [h]
  | cons q rest ih =>
    simp only [mapSet] at h
    split at h
    · rcases List.mem_cons.mp h with rfl | hp
      · simp
      · exact Or.inr (List.mem_cons_of_mem _ hp)
    · rcases List.mem_cons.mp h with rfl | hp
      · simp
      · rcases ih hp with h2 | h2
        · exact Or.inl h2
        · exact Or.inr (List.mem_cons_of_mem _ h2)

theorem buildNormalizedAllows_values {rules : List Str} {p : Str × Str}
    (h : p ∈ buildNormalizedAllows rules) : p.2 ∈ rules := by
  suffices H : ∀ (l : List Str) (m : List (Str × Str)), (∀ q ∈ m, q.2 ∈ rules) →
      (∀ r ∈ l, r ∈ rules) →
      ∀ q ∈ l.foldl (fun m r => mapSet m (normalizeLicenseToken r) r) m, q.2 ∈ rules by
    exact H rules [] (by simp) (fun r hr => hr) p h
  intro l
  induction l with
  | nil => intro m hm _ q hq; exact hm q hq
  | cons r l' ih =>
    intro m hm hl q hq
    refine ih (mapSet m (normalizeLicenseToken r) r) ?_ (fun x hx => hl x (by simp [hx])) q hq
    intro q' hq'
    rcases mem_mapSet hq' with h2 | h2
    · exact h2 ▸ hl r (by simp)
    · exact hm q' h2

theorem evaluateExpressionNode_allowed_iff {m : List (Str × Str)}
    (hm : ∀ k v, mapGet m k = some v → v ≠ ([] : Str)) (node : ExpressionNode) :
    (evaluateExpressionNode m node).1 = true ↔ (evaluateExpressionNode m node).2 ≠ none := by
  induction node with
  | license tok =>
    cases h : mapGet m (normalizeLicenseToken tok) with
    | none => simp [evaluateExpressionNode, h]
    | some v => simp [evaluateExpressionNode, h, hm _ v h]
  | and l r ihl ihr =>
    cases hal : (evaluateExpressionNode m l).1 with
    | false => simp [evaluateExpressionNode, hal]
    | true =>
      cases har : (evaluateExpressionNode m r).1 with
      | false => simp [evaluateExpressionNode, hal, har]
      | true =>
        have hl2 : (evaluateExpressionNode m l).2 ≠ none := (ihl).mp hal
        cases hl2' : (evaluateExpressionNode m l).2 with
        | none => exact absurd hl2' hl2
        | some x => simp [evaluateExpressionNode, hal, har, hl2']
  | or l r ihl ihr =>
    cases hal : (evaluateExpressionNode m l).1 with
    | false => simpa [evaluateExpressionNode, hal] using ihr
    | true =>
      have : evaluateExpressionNode m (.or l r) = evaluateExpressionNode m l := by
        simp [evaluateExpressionNode, hal]
      rw [this, hal]
      simp [ihl.mp hal]

/-- C7: in every entry returned by `auditLicenseEntries`,
`matchedAllowRule` is non-null exactly when `status = allowed` — on
the successful-parse path by the evaluator invariant, and on the
malformed-expression fallback path because it returns
`status = violation` with a null rule.  The hypothesis states the
allow-list's deduplicated form (as produced by `parseAllowValues`):
no rule normalizes to the empty string. -/
theorem audit_matched_iff_allowed (entries : List LicenseEntry) (allowRules : List Str)
    (hrules : ∀ r ∈ allowRules, normalizeLicenseToken r ≠ ([] : Str))
    (e : LicenseAuditEntry) (he : e ∈ auditLicenseEntries entries allowRules) :
    e.status = .allowed ↔ e.matchedAllowRule ≠ none := by
  have hm : ∀ k v, mapGet (buildNormalizedAllows allowRules) k = some v → v ≠ ([] : Str) := by
    intro k v hkv hv
    have hvr : v ∈ allowRules := buildNormalizedAllows_values (mapGet_mem hkv)
    exact hrules v hvr (by rw [hv]; rfl)
  rcases List.mem_map.mp he with ⟨entry, _, rfl⟩
  set ev := evaluateLicenseExpression entry.licenseType (buildNormalizedAllows allowRules)
    with hev
  have hiff : ev.allowed = true ↔ ev.matchedAllowRule ≠ none := by
    rw [hev]
    cases hp : (parseLicenseExpression entry.licenseType).node with
    | none => simp [evaluateLicenseExpression, hp]
    | some node =>
      simpa [evaluateLicenseExpression, hp] using
        evaluateExpressionNode_allowed_iff hm node
  cases hall : ev.allowed with
  | false =>
    have : ev.matchedAllowRule = none := by
      by_contra hne
      have := hiff.mpr hne
      rw [hall] at this
      exact Bool.false_ne_true this
    simp [hall, this, ← hev]
  | true =>
    simp [hall, ← hev, hiff.mp hall]

/-- C7 (witness): the invariant, instantiated on the audit of one
`"MIT"` entry against the allow-list `["MIT"]`. -/
theorem audit_matched_iff_allowed_witness :
    (⟨"p".toList, "1".toList, "MIT".toList, [], .allowed, some ("MIT".toList),
        ["MIT".toList]⟩ : LicenseAuditEntry).status = .allowed ↔
      (⟨"p".toList, "1".toList, "MIT".toList, [], .allowed, some ("MIT".toList),
        ["MIT".toList]⟩ : LicenseAuditEntry).matchedAllowRule ≠ none :=
  audit_matched_iff_allowed [⟨"p".toList, "1".toList, "MIT".toList, []⟩] ["MIT".toList]
    (by decide) _ (by decide)

theorem splitOnWsGo_eq_nil_iff (cur : Str) (s : Str) :
    splitOnWsGo cur s = [] ↔ cur = [] ∧ ∀ c ∈ s, isJsWs c := by
  induction s generalizing cur with
  | nil =>
    by_cases h : cur = [] <;> simp [splitOnWsGo, h]
  | cons c rest ih =>
    by_cases hw : isJsWs c
    · by_cases hc : cur = []
      · simpa [splitOnWsGo, hw, hc] using (ih []).trans (by simp [hw])
      · simp [splitOnWsGo, hw, hc]
    · simp [splitOnWsGo, hw, ih (c :: cur)]

theorem jsTrim_eq_nil_iff (s : Str) : jsTrim s = [] ↔ ∀ c ∈ s, isJsWs c := by
  unfold jsTrim
  rw [List.reverse_eq_nil_iff, List.dropWhile_eq_nil_iff]
  constructor
  · intro h c hc
    by_cases hcs : c ∈ s.dropWhile isJsWs
    · exact h c (List.mem_reverse.mpr hcs)
    · have hc2 : c ∈ s.takeWhile isJsWs ++ s.dropWhile isJsWs := by
        rw [List.takeWhile_append_dropWhile]
        exact hc
      rcases List.mem_append.mp hc2 with h2 | h2
      · exact List.mem_takeWhile_imp h2
      · exact absurd h2 hcs
  · intro h c hc
    exact h c ((List.dropWhile_sublist isJsWs).subset (List.mem_reverse.mp hc))

theorem flatMap_eq_self {f : Char → Str} {s : Str} (h : ∀ c ∈ s, f c = [c]) :
    s.flatMap f = s := by
  induction s with
  | nil => rfl
  | cons c rest ih =>
    simp only [List.flatMap_cons, h c (by simp)]
    simpa using ih fun x hx => h x (by simp [hx])

theorem tokenizeExpression_eq_nil_iff (s : Str) :
    tokenizeExpression s = [] ↔ ∀ c ∈ s, isJsWs c := by
  unfold tokenizeExpression splitOnWs
  rw [splitOnWsGo_eq_nil_iff]
  simp only [true_and]
  constructor
  · intro h c hc
    by_contra hw
    by_cases hp : c = '(' ∨ c = ')'
    · have : '(' ∈ s.flatMap (fun c =>
          if c = '(' then [' ', '(', ' '] else if c = ')' then [' ', ')', ' '] else [c]) ∨
          ')' ∈ s.flatMap (fun c =>
          if c = '(' then [' ', '(', ' '] else if c = ')' then [' ', ')', ' '] else [c]) := by
        rcases hp with h3 | h3
        · exact Or.inl (List.mem_flatMap.mpr ⟨c, hc, by simp [h3]⟩)
        · exact Or.inr (List.mem_flatMap.mpr ⟨c, hc, by simp [h3]⟩)
      rcases this with h2 | h2
      · have := h _ h2; simp [isJsWs] at this
      · have := h _ h2; simp [isJsWs] at this
    · push_neg at hp
      have hmem : c ∈ s.flatMap (fun c =>
          if c = '(' then [' ', '(', ' '] else if c = ')' then [' ', ')', ' '] else [c]) :=
        List.mem_flatMap.mpr ⟨c, hc, by simp [hp.1, hp.2]⟩
      exact hw (h c hmem)
  · intro h
    have heq : s.flatMap (fun c =>
        if c = '(' then [' ', '(', ' '] else if c = ')' then [' ', ')', ' '] else [c]) = s := by
      refine flatMap_eq_self fun c hc => ?_
      have hw := h c hc
      have h1 : c ≠ '(' := by intro e; rw [e] at hw; simp [isJsWs] at hw
      have h2 : c ≠ ')' := by intro e; rw [e] at hw; simp [isJsWs] at hw
      simp [h1, h2]
    rw [heq]
    exact h

theorem parse_node_none_tokens (s : Str)
    (h : (parseLicenseExpression s).node = none) :
    (parseLicenseExpression s).tokens = extractLicenseTokens s := by
  by_cases hin : tokenizeExpression s = []
  · have htrim : jsTrim s = [] :=
      (jsTrim_eq_nil_iff s).mpr ((tokenizeExpression_eq_nil_iff s).mp hin)
    simp [parseLicenseExpression, hin, extractLicenseTokens, htrim]
  · rcases hpo : parseOr (2 * (tokenizeExpression s).length + 2) (tokenizeExpression s) []
      with ⟨res, acc⟩
    cases res with
    | none => simp [parseLicenseExpression, hin, hpo]
    | some pr =>
      rcases pr with ⟨root, rest⟩
      cases rest with
      | nil =>
        exfalso
        simp [parseLicenseExpression, hin, hpo] at h
      | cons t ts => simp [parseLicenseExpression, hin, hpo]

/-- C5: on a malformed license expression (any string the
recursive-descent parser rejects — unbalanced parentheses, trailing
operator, empty group, leftover tokens) the auditor never throws (the
embedding is total): it returns the entry unchanged with
`status = violation`, `matchedAllowRule = null`, and the permissive
splitter's fragments as `detectedLicenseTokens`, regardless of whether
any fragment matches an allow rule. -/
theorem audit_malformed_fallback (n v u s : Str) (allowRules : List Str)
    (hmal : (parseLicenseExpression s).node = none) :
    auditLicenseEntries [⟨n, v, s, u⟩] allowRules =
      [⟨n, v, s, u, .violation, none, extractLicenseTokens s⟩] := by
  simp [auditLicenseEntries, evaluateLicenseExpression, hmal, parse_node_none_tokens s hmal]

/-- C5 (witness): the unbalanced `"(MIT"` with allow-list `["MIT"]` is
still a violation, with fallback tokens `["MIT"]`. -/
theorem audit_malformed_fallback_witness :
    auditLicenseEntries [⟨"p".toList, "1".toList, "(MIT".toList, []⟩] ["MIT".toList] =
      [⟨"p".toList, "1".toList, "(MIT".toList, [], .violation, none, ["MIT".toList]⟩] := by
  rw [audit_malformed_fallback _ _ _ _ _ (by decide)]
  decide

theorem parse_acc_extends (fuel : Nat) :
    (∀ ts acc res acc', parseOr fuel ts acc = (res, acc') →
      ∃ ext, acc' = acc ++ ext ∧
        ∀ node rest, res = some (node, rest) → ext ≠ []) ∧
    (∀ ts acc res acc', parseAnd fuel ts acc = (res, acc') →
      ∃ ext, acc' = acc ++ ext ∧
        ∀ node rest, res = some (node, rest) → ext ≠ []) ∧
    (∀ ts acc res acc', parsePrimary fuel ts acc = (res, acc') →
      ∃ ext, acc' = acc ++ ext ∧
        ∀ node rest, res = some (node, rest) → ext ≠ []) ∧
    (∀ node ts acc res acc', parseOrLoop fuel node ts acc = (res, acc') →
      ∃ ext, acc' = acc ++ ext) ∧
    (∀ node ts acc res acc', parseAndLoop fuel node ts acc = (res, acc') →
      ∃ ext, acc' = acc ++ ext) := by
  induction fuel with
  | zero =>
    refine ⟨?_, ?_, ?_, ?_, ?_⟩
    · intro ts acc res acc' h
      simp only [parseOr] at h
      injection h with h1 h2
      subst h1; subst h2
      exact ⟨[], by simp, fun node rest hr => by cases hr⟩
    · intro ts acc res acc' h
      simp only [parseAnd] at h
      injection h with h1 h2
      subst h1; subst h2
      exact ⟨[], by simp, fun node rest hr => by cases hr⟩
    · intro ts acc res acc' h
      simp only [parsePrimary] at h
      injection h with h1 h2
      subst h1; subst h2
      exact ⟨[], by simp, fun node rest hr => by cases hr⟩
    · intro node ts acc res acc' h
      simp only [parseOrLoop] at h
      injection h with h1 h2
      subst h2
      exact ⟨[], by simp⟩
    · intro node ts acc res acc' h
      simp only [parseAndLoop] at h
      injection h with h1 h2
      subst h2
      exact ⟨[], by simp⟩
  | succ fuel ih =>
    obtain ⟨ihOr, ihAnd, ihPrim, ihOrLoop, ihAndLoop⟩ := ih
    refine ⟨?_, ?_, ?_, ?_, ?_⟩
    · intro ts acc res acc' h
      simp only [parseOr] at h
      rcases hpa : parseAnd fuel ts acc with ⟨res1, acc1⟩
      rw [hpa] at h
      cases res1 with
      | none =>
        injection h with h1 h2
        subst h1; subst h2
        obtain ⟨ext, hext, _⟩ := ihAnd ts acc none acc1 hpa
        exact ⟨ext, hext, fun node rest hr => by cases hr⟩
      | some pr =>
        rcases pr with ⟨node1, rest1⟩
        obtain ⟨ext1, hext1, hne1⟩ := ihAnd ts acc _ acc1 hpa
        obtain ⟨ext2, hext2⟩ := ihOrLoop node1 rest1 acc1 res acc' h
        refine ⟨ext1 ++ ext2, by rw [hext2, hext1, List.append_assoc], fun node rest hr => ?_⟩
        intro hc
        exact hne1 node1 rest1 rfl (List.append_eq_nil.mp hc).1
    · intro ts acc res acc' h
      simp only [parseAnd] at h
      rcases hpp : parsePrimary fuel ts acc with ⟨res1, acc1⟩
      rw [hpp] at h
      cases res1 with
      | none =>
        injection h with h1 h2
        subst h1; subst h2
        obtain ⟨ext, hext, _⟩ := ihPrim ts acc none acc1 hpp
        exact ⟨ext, hext, fun node rest hr => by cases hr⟩
      | some pr =>
        rcases pr with ⟨node1, rest1⟩
        obtain ⟨ext1, hext1, hne1⟩ := ihPrim ts acc _ acc1 hpp
        obtain ⟨ext2, hext2⟩ := ihAndLoop node1 rest1 acc1 res acc' h
        refine ⟨ext1 ++ ext2, by rw [hext2, hext1, List.append_assoc], fun node rest hr => ?_⟩
        intro hc
        exact hne1 node1 rest1 rfl (List.append_eq_nil.mp hc).1
    · intro ts acc res acc' h
      cases ts with
      | nil =>
        simp only [parsePrimary] at h
        injection h with h1 h2
        subst h1; subst h2
        exact ⟨[], by simp, fun node rest hr => by cases hr⟩
      | cons t rest =>
        simp only [parsePrimary] at h
        by_cases ht : t = ['(']
        · rw [if_pos ht] at h
          rcases hpo : parseOr fuel rest acc with ⟨res1, acc1⟩
          rw [hpo] at h
          cases res1 with
          | none =>
            injection h with h1 h2
            subst h1; subst h2
            obtain ⟨ext, hext, _⟩ := ihOr rest acc none acc1 hpo
            exact ⟨ext, hext, fun node rest hr => by cases hr⟩
          | some pr =>
            rcases pr with ⟨nested, rest'⟩
            obtain ⟨ext, hext, hne⟩ := ihOr rest acc _ acc1 hpo
            cases rest' with
            | nil =>
              injection h with h1 h2
              subst h1; subst h2
              exact ⟨ext, hext, fun node rest hr => by cases hr⟩
            | cons r rest'' =>
              dsimp only at h
              by_cases hr' : r = [')']
              · rw [if_pos hr'] at h
                injection h with h1 h2
                subst h1; subst h2
                exact ⟨ext, hext, fun node rest hr => hne nested (r :: rest'') rfl⟩
              · rw [if_neg hr'] at h
                injection h with h1 h2
                subst h1; subst h2
                exact ⟨ext, hext, fun node rest hr => by cases hr⟩
        · rw [if_neg ht] at h
          by_cases hop : t = [')'] ∨ isOperatorToken t = true
          · rw [if_pos hop] at h
            injection h with h1 h2
            subst h1; subst h2
            exact ⟨[], by simp, fun node rest hr => by cases hr⟩
          · rw [if_neg hop] at h
            rcases hct : consumeLicenseToken t rest with ⟨tok, rest'⟩
            rw [hct] at h
            injection h with h1 h2
            subst h1; subst h2
            exact ⟨[tok], rfl, fun node rest hr => by simp⟩
    · intro node ts acc res acc' h
      cases ts with
      | nil =>
        simp only [parseOrLoop] at h
        injection h with h1 h2
        subst h2
        exact ⟨[], by simp⟩
      | cons t rest =>
        simp only [parseOrLoop] at h
        by_cases hop : peekIsOperator t ('O' :: ['R']) = true
        · rw [if_pos hop] at h
          rcases hpa : parseAnd fuel rest acc with ⟨res1, acc1⟩
          rw [hpa] at h
          cases res1 with
          | none =>
            injection h with h1 h2
            subst h2
            obtain ⟨ext, hext, _⟩ := ihAnd rest acc none acc1 hpa
            exact ⟨ext, hext⟩
          | some pr =>
            rcases pr with ⟨right, rest'⟩
            obtain ⟨ext1, hext1, _⟩ := ihAnd rest acc _ acc1 hpa
            obtain ⟨ext2, hext2⟩ := ihOrLoop (.or node right) rest' acc1 res acc' h
            exact ⟨ext1 ++ ext2, by rw [hext2, hext1, List.append_assoc]⟩
        · rw [if_neg hop] at h
          injection h with h1 h2
          subst h2
          exact ⟨[], by simp⟩
    · intro node ts acc res acc' h
      cases ts with
      | nil =>
        simp only [parseAndLoop] at h
        injection h with h1 h2
        subst h2
        exact ⟨[], by simp⟩
      | cons t rest =>
        simp only [parseAndLoop] at h
        by_cases hop : peekIsOperator t ('A' :: 'N' :: ['D']) = true
        · rw [if_pos hop] at h
          rcases hpp : parsePrimary fuel rest acc with ⟨res1, acc1⟩
          rw [hpp] at h
          cases res1 with
          | none =>
            injection h with h1 h2
            subst h2
            obtain ⟨ext, hext, _⟩ := ihPrim rest acc none acc1 hpp
            exact ⟨ext, hext⟩
          | some pr =>
            rcases pr with ⟨right, rest'⟩
            obtain ⟨ext1, hext1, _⟩ := ihPrim rest acc _ acc1 hpp
            obtain ⟨ext2, hext2⟩ := ihAndLoop (.and node right) rest' acc1 res acc' h
            exact ⟨ext1 ++ ext2, by rw [hext2, hext1, List.append_assoc]⟩
        · rw [if_neg hop] at h
          injection h with h1 h2
          subst h2
          exact ⟨[], by simp⟩

theorem dedupeTokens_ne_nil {l : List Str} (h : l ≠ []) : dedupeTokens l ≠ [] := by
  cases l with
  | nil => exact absurd rfl h
  | cons t rest => simp [dedupeTokens, dedupeTokensGo]

theorem extractLicenseTokens_ne_nil {s : Str} (h : jsTrim s ≠ []) :
    extractLicenseTokens s ≠ [] := by
  simp only [extractLicenseTokens, if_neg h]
  split_ifs with hs
  · exact hs
  · simp

/-- C8: `detectedLicenseTokens` is empty exactly when the license
string is empty or all-whitespace: an empty or blank `licenseType`
yields no tokens and `status = violation`, while every other string
produces a non-empty token list — through the parser's leaves on a
successful parse, through the permissive splitter otherwise, with the
whole trimmed string (e.g. `"()"`) as last resort. -/
theorem detected_tokens_empty_iff_blank :
    (∀ (s : Str) (m : List (Str × Str)),
      (evaluateLicenseExpression s m).detectedTokens = [] ↔ jsTrim s = []) ∧
    (auditLicenseEntries [⟨"p".toList, "1".toList, [], []⟩] ["MIT".toList]).map
        (fun e => (e.detectedLicenseTokens, e.status)) = [([], .violation)] ∧
    (auditLicenseEntries [⟨"p".toList, "1".toList, "   ".toList, []⟩] ["MIT".toList]).map
        (fun e => (e.detectedLicenseTokens, e.status)) = [([], .violation)] ∧
    (auditLicenseEntries [⟨"p".toList, "1".toList, "()".toList, []⟩] ["MIT".toList]).map
        (fun e => e.detectedLicenseTokens) = [["()".toList]] := by
  refine ⟨fun s m => ?_, by decide, by decide, by decide⟩
  have hdt : (evaluateLicenseExpression s m).detectedTokens =
      (parseLicenseExpression s).tokens := by
    cases hp : (parseLicenseExpression s).node <;>
      simp [evaluateLicenseExpression, hp]
  rw [hdt]
  constructor
  · intro h
    by_contra htr
    by_cases hin : tokenizeExpression s = []
    · exact htr ((jsTrim_eq_nil_iff s).mpr ((tokenizeExpression_eq_nil_iff s).mp hin))
    · rcases hpo : parseOr (2 * (tokenizeExpression s).length + 2) (tokenizeExpression s) []
        with ⟨res, acc⟩
      cases res with
      | none =>
        rw [show (parseLicenseExpression s).tokens = extractLicenseTokens s by
          simp [parseLicenseExpression, hin, hpo]] at h
        exact extractLicenseTokens_ne_nil htr h
      | some pr =>
        rcases pr with ⟨root, rest⟩
        cases rest with
        | nil =>
          have htok : (parseLicenseExpression s).tokens = dedupeTokens acc := by
            simp [parseLicenseExpression, hin, hpo]
          obtain ⟨ext, hext, hne⟩ :=
            (parse_acc_extends (2 * (tokenizeExpression s).length + 2)).1
              (tokenizeExpression s) [] _ acc hpo
          have hacc : acc ≠ [] := by
            rw [hext]
            simpa using hne root [] rfl
          exact dedupeTokens_ne_nil hacc (htok ▸ h)
        | cons t ts =>
          rw [show (parseLicenseExpression s).tokens = extractLicenseTokens s by
            simp [parseLicenseExpression, hin, hpo]] at h
          exact extractLicenseTokens_ne_nil htr h
  · intro h
    have hin : tokenizeExpression s = [] :=
      (tokenizeExpression_eq_nil_iff s).mpr ((jsTrim_eq_nil_iff s).mp h)
    simp [parseLicenseExpression, hin]

theorem get?_set_decomp {α : Type} (l : List α) (k : Nat) (a b : α)
    (h : l.get? k = some a) :
    ∃ l₁ l₂, l = l₁ ++ a :: l₂ ∧ l₁.length = k ∧ l.set k b = l₁ ++ b :: l₂ := by
  induction l generalizing k with
  | nil => simp at h
  | cons x t ih =>
    cases k with
    | zero =>
      simp only [List.get?] at h
      obtain rfl := Option.some.inj h
      exact ⟨[], t, rfl, rfl, rfl⟩
    | succ k =>
      simp only [List.get?] at h
      obtain ⟨l₁, l₂, hdec, hlen, hset⟩ := ih k h
      exact ⟨x :: l₁, l₂, by simp [hdec], by simp [hlen], by simp [List.set, hset]⟩

theorem mapRunStep_inv {T U : Type} {items : List T} {mapper : T → Option U}
    {concurrency : Int} {s : MapRunState U} (k : Nat)
    (hinv : MapRunInv items mapper concurrency s) :
    MapRunInv items mapper concurrency (mapRunStep items mapper s k) := by
  obtain ⟨hlen, hle, hlog, hdone, processed, hperm, hres⟩ := hinv
  cases hk : s.workers.get? k with
  | none =>
    simp only [mapRunStep, hk]
    exact ⟨hlen, hle, hlog, hdone, processed, hperm, hres⟩
  | some w =>
    cases w with
    | ready =>
      simp only [mapRunStep, hk]
      by_cases hn : s.nextIndex < items.length
      · rw [if_pos hn]
        cases hi : items.get? s.nextIndex with
        | none =>
          dsimp only
          refine ⟨hlen, hn, by simp [hlog, List.range_succ], ?_, processed ++ [s.nextIndex],
            ?_, ?_⟩
          · intro hd
            exact absurd (hdone hd) (Nat.ne_of_lt hn)
          · rw [List.range_succ, ← Multiset.coe_add, ← Multiset.coe_add, ← add_assoc, hperm]
          · have hi' : items[s.nextIndex]? = none := by
              rw [← List.get?_eq_getElem?]; exact hi
            have heq : (processed ++ [s.nextIndex]).filterMap
                (fun i => (items.get? i).bind mapper) =
                processed.filterMap (fun i => (items.get? i).bind mapper) := by
              simp [List.filterMap_append, hi']
            rw [heq]
            exact hres
        | some item =>
          dsimp only
          obtain ⟨l₁, l₂, hdec, hl1, hset⟩ :=
            get?_set_decomp s.workers k _ (WorkerStatus.awaiting s.nextIndex) hk
          rw [hset]
          refine ⟨?_, hn, by simp [hlog, List.range_succ], ?_, processed, ?_, hres⟩
          · have hl : (l₁ ++ WorkerStatus.awaiting s.nextIndex :: l₂).length =
                s.workers.length := by
              rw [hdec]; simp
            rw [hl, hlen]
          · rintro ⟨w', hw', rfl⟩
            exfalso
            have hmem : WorkerStatus.done ∈ s.workers := by
              rw [hdec]
              rcases List.mem_append.mp hw' with h2 | h2
              · exact List.mem_append.mpr (Or.inl h2)
              · rcases List.mem_cons.mp h2 with h3 | h3
                · cases h3
                · exact List.mem_append.mpr (Or.inr (List.mem_cons_of_mem _ h3))
            exact absurd (hdone ⟨_, hmem, rfl⟩) (Nat.ne_of_lt hn)
          · rw [hdec] at hperm
            simp only [List.filterMap_append, List.filterMap_cons] at hperm ⊢
            rw [List.range_succ, ← Multiset.coe_add]
            rw [← Multiset.coe_add] at hperm ⊢
            rw [← Multiset.cons_coe, ← Multiset.singleton_add]
            rw [← hperm, Multiset.coe_singleton]
            abel
      · rw [if_neg hn]
        obtain ⟨l₁, l₂, hdec, hl1, hset⟩ :=
          get?_set_decomp s.workers k _ WorkerStatus.done hk
        rw [hset]
        have hnl : s.nextIndex = items.length := Nat.le_antisymm hle (Nat.le_of_not_lt hn)
        refine ⟨?_, hle, hlog, fun _ => hnl, processed, ?_, hres⟩
        · have hl : (l₁ ++ WorkerStatus.done :: l₂).length = s.workers.length := by
            rw [hdec]; simp
          rw [hl, hlen]
        · rw [hdec] at hperm
          simp only [List.filterMap_append, List.filterMap_cons] at hperm ⊢
          exact hperm
    | awaiting i =>
      simp only [mapRunStep, hk]
      obtain ⟨l₁, l₂, hdec, hl1, hset⟩ :=
        get?_set_decomp s.workers k _ WorkerStatus.ready hk
      rw [hset]
      refine ⟨?_, hle, hlog, ?_, processed ++ [i], ?_, ?_⟩
      · have hl : (l₁ ++ WorkerStatus.ready :: l₂).length = s.workers.length := by
          rw [hdec]; simp
        rw [hl, hlen]
      · rintro ⟨w', hw', rfl⟩
        have hmem : WorkerStatus.done ∈ s.workers := by
          rw [hdec]
          rcases List.mem_append.mp hw' with h2 | h2
          · exact List.mem_append.mpr (Or.inl h2)
          · rcases List.mem_cons.mp h2 with h3 | h3
            · cases h3
            · exact List.mem_append.mpr (Or.inr (List.mem_cons_of_mem _ h3))
        exact hdone ⟨_, hmem, rfl⟩
      · rw [hdec] at hperm
        simp only [List.filterMap_append, List.filterMap_cons] at hperm ⊢
        rw [← Multiset.coe_add] at hperm ⊢
        rw [← Multiset.cons_coe, ← Multiset.singleton_add] at hperm
        rw [← Multiset.coe_add, ← hperm, Multiset.coe_singleton]
        abel
      · simp only [List.filterMap_append, List.filterMap_cons, List.filterMap_nil]
        rw [← Multiset.coe_add]
        cases hgi : (items.get? i).bind mapper with
        | none => simpa [hgi] using hres
        | some v =>
          rw [← Multiset.coe_add]
          simp only [hgi]
          rw [hres]
          simp
    | done =>
      simp only [mapRunStep, hk]
      exact ⟨hlen, hle, hlog, hdone, processed, hperm, hres⟩


theorem mapRunInit_inv {T U : Type} (items : List T) (mapper : T → Option U)
    (concurrency : Int) :
    MapRunInv items mapper concurrency (mapRunInit items concurrency : MapRunState U) := by
  refine ⟨by simp [mapRunInit], by simp [mapRunInit], by simp [mapRunInit],
    fun ⟨w, hw, hd⟩ => ?_, [], ?_, by simp [mapRunInit]⟩
  · rw [List.eq_of_mem_replicate hw] at hd
    cases hd
  · simp only [mapRunInit]
    have hfm : (List.replicate (mapWorkerCount items concurrency)
        WorkerStatus.ready).filterMap (fun w => match w with
          | WorkerStatus.awaiting i => some i
          | _ => none) = [] := by
      rw [List.filterMap_eq_nil_iff]
      intro w hw
      rw [List.eq_of_mem_replicate hw]
    simp [hfm]

theorem mapRunTrace_inv {T U : Type} (items : List T) (mapper : T → Option U)
    (concurrency : Int) (trace : List Nat) :
    MapRunInv items mapper concurrency (mapRunTrace items mapper concurrency trace) := by
  unfold mapRunTrace
  suffices H : ∀ (tr : List Nat) (s : MapRunState U), MapRunInv items mapper concurrency s →
      MapRunInv items mapper concurrency (tr.foldl (mapRunStep items mapper) s) by
    exact H trace _ (mapRunInit_inv items mapper concurrency)
  intro tr
  induction tr with
  | nil => intro s hs; exact hs
  | cons k tr ih =>
    intro s hs
    exact ih _ (mapRunStep_inv k hs)

theorem range_filterMap_get {T U : Type} (f : T → Option U) (items : List T) :
    (List.range items.length).filterMap (fun i => (items.get? i).bind f) =
      items.filterMap f := by
  induction items with
  | nil => simp
  | cons a t ih =>
    rw [List.length_cons, List.range_succ_eq_map, List.filterMap_cons,
      List.filterMap_map]
    have hcomp : ((fun i => ((a :: t).get? i).bind f) ∘ Nat.succ) =
        fun i => (t.get? i).bind f := by
      funext i
      simp [List.get?]
    rw [hcomp]
    have ih' : List.filterMap (fun i => t[i]?.bind f) (List.range t.length) =
        List.filterMap f t := by
      simpa [List.get?_eq_getElem?] using ih
    cases hfa : f a <;> simp [List.get?, List.filterMap_cons, hfa, ih']

/-- C9: under the cooperative scheduling model, `mapWithConcurrency`
starts exactly `min(max(1, ⌊maxConcurrency⌋), items.length)` workers,
and on any schedule that runs them all to completion the shared cursor
is claimed exactly once per index — the claim log is precisely
`0, 1, …, items.length - 1` in order, so no two workers process the
same index and none is skipped — and the result collects, as a
multiset, exactly the non-omitted mapped values of the items. -/
theorem mapWithConcurrency_claims_each_index_once {T U : Type} (items : List T)
    (mapper : T → Option U) (concurrency : Int) (trace : List Nat)
    (hdone : allWorkersDone (mapRunTrace items mapper concurrency trace)) :
    (mapRunTrace items mapper concurrency trace).workers.length =
      min (max 1 concurrency).toNat items.length ∧
    (mapRunTrace items mapper concurrency trace).claimLog = List.range items.length ∧
    ((mapRunTrace items mapper concurrency trace).result : Multiset U) =
      ((items.filterMap mapper : List U) : Multiset U) := by
  obtain ⟨hlen, hle, hlog, hdinv, processed, hperm, hres⟩ :=
    mapRunTrace_inv items mapper concurrency trace
  set F := mapRunTrace items mapper concurrency trace with hF
  have hnext : F.nextIndex = items.length := by
    cases hW0 : F.workers with
    | nil =>
      have h0 : mapWorkerCount items concurrency = 0 := by
        rw [← hlen, hW0]; rfl
      have h1 : 1 ≤ (max 1 concurrency).toNat := by
        have h2 := Int.toNat_le_toNat (le_max_left 1 concurrency)
        simp only [Int.toNat_one] at h2
        exact h2
      have hlen0 : items.length = 0 := by
        rcases Nat.min_eq_zero_iff.mp h0 with h2 | h2
        · omega
        · exact h2
      omega
    | cons w ws =>
      have hwd : w = WorkerStatus.done := hdone w (by rw [hW0]; simp)
      exact hdinv ⟨w, by rw [hW0]; simp, hwd⟩
  have hfm : F.workers.filterMap (fun w => match w with
      | WorkerStatus.awaiting i => some i
      | _ => none) = [] := by
    rw [List.filterMap_eq_nil_iff]
    intro w hw
    rw [hdone w hw]
  rw [hfm] at hperm
  simp only [Multiset.coe_nil, zero_add] at hperm
  refine ⟨hlen, by rw [hlog, hnext], ?_⟩
  rw [hres]
  have hpg : (processed.filterMap fun i => (items.get? i).bind mapper).Perm
      ((List.range items.length).filterMap fun i => (items.get? i).bind mapper) := by
    refine List.Perm.filterMap _ ?_
    rw [← hnext]
    exact Multiset.coe_eq_coe.mp hperm
  rw [Multiset.coe_eq_coe.mpr hpg, range_filterMap_get]

/-- C9 (witness): a complete concrete schedule of two workers over two
items; both indices claimed once, both mapped values collected. -/
theorem mapWithConcurrency_claims_witness :
    (mapRunTrace [10, 20] (fun x => some (x * 2)) 2 [0, 1, 0, 0, 1, 1]).workers.length =
      min (max 1 (2 : Int)).toNat 2 ∧
    (mapRunTrace [10, 20] (fun x => some (x * 2)) 2 [0, 1, 0, 0, 1, 1]).claimLog =
      List.range 2 ∧
    ((mapRunTrace [10, 20] (fun x => some (x * 2)) 2 [0, 1, 0, 0, 1, 1]).result :
        Multiset Nat) =
      (([10, 20].filterMap (fun x => some (x * 2)) : List Nat) : Multiset Nat) :=
  mapWithConcurrency_claims_each_index_once [10, 20] (fun x => some (x * 2)) 2
    [0, 1, 0, 0, 1, 1] (by decide)

theorem mem_addUnique {l : List Nat} {x y : Nat} :
    y ∈ addUnique l x ↔ y ∈ l ∨ y = x := by
  unfold addUnique
  split_ifs with h
  · constructor
    · exact Or.inl
    · rintro (h2 | rfl)
      · exact h2
      · exact h
  · simp

theorem processWorkspaceDescriptors_ext_mem {project : Project}
    {recursiveWorkspaces recursiveNpm : Bool} {visitedLocatorHashes : List Nat}
    (ds : List Nat) (ext : List Nat) {h : Nat}
    (hmem : h ∈ (processWorkspaceDescriptors project recursiveWorkspaces recursiveNpm
      visitedLocatorHashes ds ext).2) :
    h ∈ ext ∨ ∃ p, natMapGet project.storedPackages h = some p ∧
      natMapGet project.workspaceByLocator h = none := by
  induction ds generalizing ext with
  | nil => exact Or.inl hmem
  | cons d ds ih =>
    simp only [processWorkspaceDescriptors] at hmem
    cases hres : natMapGet project.storedResolutions d with
    | none =>
      rw [hres] at hmem
      dsimp only at hmem
      exact ih ext hmem
    | some resolution =>
      rw [hres] at hmem
      dsimp only at hmem
      cases hpkg : natMapGet project.storedPackages resolution with
      | none =>
        rw [hpkg] at hmem
        dsimp only at hmem
        exact ih ext hmem
      | some pkg =>
        rw [hpkg] at hmem
        dsimp only at hmem
        cases hws : natMapGet project.workspaceByLocator resolution with
        | some w' =>
          rw [hws] at hmem
          dsimp only at hmem
          split at hmem <;> exact ih ext hmem
        | none =>
          rw [hws] at hmem
          dsimp only at hmem
          have hmem2 : h ∈ (processWorkspaceDescriptors project recursiveWorkspaces
              recursiveNpm visitedLocatorHashes ds (addUnique ext resolution)).2 := by
            split at hmem <;> exact hmem
          rcases ih (addUnique ext resolution) hmem2 with h2 | h2
          · rcases mem_addUnique.mp h2 with h3 | rfl
            · exact Or.inl h3
            · exact Or.inr ⟨pkg, hpkg, hws⟩
          · exact Or.inr h2

theorem processLocatorDeps_ext_mem {project : Project}
    {recursiveWorkspaces : Bool} {visitedLocatorHashes : List Nat}
    (ds : List Nat) (ext : List Nat) {h : Nat}
    (hmem : h ∈ (processLocatorDeps project recursiveWorkspaces
      visitedLocatorHashes ds ext).2) :
    h ∈ ext ∨ ∃ p, natMapGet project.storedPackages h = some p ∧
      natMapGet project.workspaceByLocator h = none := by
  induction ds generalizing ext with
  | nil => exact Or.inl hmem
  | cons d ds ih =>
    simp only [processLocatorDeps] at hmem
    cases hres : natMapGet project.storedResolutions d with
    | none =>
      rw [hres] at hmem
      dsimp only at hmem
      exact ih ext hmem
    | some resolution =>
      rw [hres] at hmem
      dsimp only at hmem
      cases hpkg : natMapGet project.storedPackages resolution with
      | none =>
        rw [hpkg] at hmem
        dsimp only at hmem
        exact ih ext hmem
      | some pkg =>
        rw [hpkg] at hmem
        dsimp only at hmem
        cases hws : natMapGet project.workspaceByLocator resolution with
        | some w' =>
          rw [hws] at hmem
          dsimp only at hmem
          split at hmem <;> exact ih ext hmem
        | none =>
          rw [hws] at hmem
          dsimp only at hmem
          have hmem2 : h ∈ (processLocatorDeps project recursiveWorkspaces
              visitedLocatorHashes ds (addUnique ext resolution)).2 := by
            split at hmem <;> exact hmem
          rcases ih (addUnique ext resolution) hmem2 with h2 | h2
          · rcases mem_addUnique.mp h2 with h3 | rfl
            · exact Or.inl h3
            · exact Or.inr ⟨pkg, hpkg, hws⟩
          · exact Or.inr h2

theorem collectGo_external_sound (project : Project)
    (includeDev recursiveWorkspaces recursiveNpm : Bool) (fuel : Nat)
    (s : CollectState)
    (hext : ∀ h ∈ s.external, ∃ p, natMapGet project.storedPackages h = some p ∧
      natMapGet project.workspaceByLocator h = none) :
    ∀ h ∈ (collectGo project includeDev recursiveWorkspaces recursiveNpm fuel s).external,
      ∃ p, natMapGet project.storedPackages h = some p ∧
        natMapGet project.workspaceByLocator h = none := by
  induction fuel generalizing s with
  | zero => exact hext
  | succ fuel ih =>
    rcases s with ⟨queue, vw, vl, ext⟩
    cases queue with
    | nil => exact hext
    | cons node rest =>
      cases node with
      | workspace w =>
        simp only [collectGo]
        split_ifs with hv
        · exact ih _ hext
        · refine ih _ ?_
          intro h hmem
          rcases processWorkspaceDescriptors_ext_mem _ ext hmem with h2 | h2
          · exact hext h h2
          · exact h2
      | locator locatorHash =>
        simp only [collectGo]
        by_cases hv : locatorHash ∈ vl
        · rw [if_pos hv]
          exact ih _ hext
        · rw [if_neg hv]
          cases hpkg : natMapGet project.storedPackages locatorHash with
          | none =>
            dsimp only
            exact ih _ hext
          | some pkg =>
            dsimp only
            by_cases hrn : recursiveNpm = false
            · rw [if_pos hrn]
              exact ih _ hext
            · rw [if_neg hrn]
              refine ih _ ?_
              intro h hmem
              rcases processLocatorDeps_ext_mem _ ext hmem with h2 | h2
              · exact hext h h2
              · exact h2

/-- C10: every hash in the collector's result set is an external
(non-workspace) package: its package record exists and the workspace
membership test (`tryWorkspaceByLocator`) returned none when it was
added, so no workspace locator ever appears in the output. -/
theorem collect_result_external_only (project : Project) (workspaces : List Workspace)
    (includeDev recursiveWorkspaces recursiveNpm : Bool) (h : Nat)
    (hmem : h ∈ collectExternalLocatorHashes project workspaces includeDev
      recursiveWorkspaces recursiveNpm) :
    ∃ p, natMapGet project.storedPackages h = some p ∧
      natMapGet project.workspaceByLocator h = none :=
  collectGo_external_sound project includeDev recursiveWorkspaces recursiveNpm
    (collectFuel project workspaces) ⟨workspaces.map QueueItem.workspace, [], [], []⟩
    (by intro h hm; cases hm) h hmem


/-- C10 (witness): on a one-workspace project whose single dependency
resolves to the external package `100`, the collected hash `100`
indeed has a package record and no workspace membership. -/
theorem collect_result_external_only_witness :
    ∃ p, natMapGet
        ({ storedResolutions := [(11, 100)], storedPackages := [(100, ⟨[]⟩)],
           workspaceByLocator := [], normalizeDependency := fun d => d } :
          Project).storedPackages 100 = some p ∧
      natMapGet
        ({ storedResolutions := [(11, 100)], storedPackages := [(100, ⟨[]⟩)],
           workspaceByLocator := [], normalizeDependency := fun d => d } :
          Project).workspaceByLocator 100 = none :=
  collect_result_external_only
    { storedResolutions := [(11, 100)], storedPackages := [(100, ⟨[]⟩)],
      workspaceByLocator := [], normalizeDependency := fun d => d }
    [⟨1, [11], []⟩] false false false 100 (by decide)

theorem mem_natMapGet_values {α : Type} {m : List (Nat × α)} {k : Nat} {v : α}
    (h : natMapGet m k = some v) : v ∈ m.map fun p => p.2 := by
  induction m with
  | nil => simp [natMapGet] at h
  | cons p rest ih =>
    simp only [natMapGet] at h
    split at h
    · simp [Option.some.inj h]
    · simpa using Or.inr (by simpa using ih h)

theorem le_foldr_max_init (l : List Nat) (init : Nat) : init ≤ l.foldr max init := by
  induction l with
  | nil => exact Nat.le_refl _
  | cons x t ih => exact Nat.le_trans ih (Nat.le_max_right x (t.foldr max init))

theorem mem_le_foldr_max {l : List Nat} {x : Nat} (h : x ∈ l) (init : Nat) :
    x ≤ l.foldr max init := by
  induction l with
  | nil => simp at h
  | cons y t ih =>
    rcases List.mem_cons.mp h with rfl | h2
    · exact Nat.le_max_left _ _
    · exact Nat.le_trans (ih h2) (Nat.le_max_right _ _)

theorem workspace_fanout_le {project : Project} {seeds : List Workspace} {w : Workspace}
    (h : w ∈ workspaceOccurs project seeds) :
    (getWorkspaceDependencyDescriptors project w true).length ≤
      maxFanout project seeds ∧
    (getWorkspaceDependencyDescriptors project w false).length ≤
      maxFanout project seeds := by
  have hval : w.dependencies.length + w.devDependencies.length ∈
      (workspaceOccurs project seeds).map fun w =>
        w.dependencies.length + w.devDependencies.length :=
    List.mem_map.mpr ⟨w, h, rfl⟩
  have hle : w.dependencies.length + w.devDependencies.length ≤
      maxFanout project seeds := by
    unfold maxFanout
    exact mem_le_foldr_max (by simpa [workspaceOccurs] using hval) _
  constructor
  · simpa [getWorkspaceDependencyDescriptors] using hle
  · simp only [getWorkspaceDependencyDescriptors, if_neg Bool.false_ne_true,
      List.append_nil, List.length_map]
    omega

theorem pkg_fanout_le {project : Project} (seeds : List Workspace) {h : Nat} {p : Pkg}
    (hp : natMapGet project.storedPackages h = some p) :
    p.dependencies.length ≤ maxFanout project seeds := by
  have hval : p.dependencies.length ∈
      project.storedPackages.map fun q => q.2.dependencies.length := by
    have := mem_natMapGet_values hp
    rcases List.mem_map.mp this with ⟨q, hq, rfl⟩
    exact List.mem_map.mpr ⟨q, hq, rfl⟩
  unfold maxFanout
  exact Nat.le_trans (mem_le_foldr_max hval 0) (le_foldr_max_init _ _)

theorem pWD_pushes_wf {project : Project} {seeds : List Workspace}
    {recursiveWorkspaces recursiveNpm : Bool} {vl : List Nat} (ds ext : List Nat) :
    ∀ item ∈ (processWorkspaceDescriptors project recursiveWorkspaces recursiveNpm
      vl ds ext).1, ItemWF project seeds item := by
  induction ds generalizing ext with
  | nil => intro item h; cases h
  | cons d ds ih =>
    intro item hitem
    simp only [processWorkspaceDescriptors] at hitem
    cases hres : natMapGet project.storedResolutions d with
    | none =>
      rw [hres] at hitem; dsimp only at hitem
      exact ih ext item hitem
    | some resolution =>
      rw [hres] at hitem; dsimp only at hitem
      cases hpkg : natMapGet project.storedPackages resolution with
      | none =>
        rw [hpkg] at hitem; dsimp only at hitem
        exact ih ext item hitem
      | some pkg =>
        rw [hpkg] at hitem; dsimp only at hitem
        cases hws : natMapGet project.workspaceByLocator resolution with
        | some w' =>
          rw [hws] at hitem; dsimp only at hitem
          split at hitem
          · rcases List.mem_cons.mp hitem with rfl | h2
            · show w' ∈ workspaceOccurs project seeds
              unfold workspaceOccurs
              exact List.mem_append.mpr (Or.inr (mem_natMapGet_values hws))
            · exact ih ext item h2
          · exact ih ext item hitem
        | none =>
          rw [hws] at hitem; dsimp only at hitem
          split at hitem
          · rcases List.mem_cons.mp hitem with rfl | h2
            · show resolution ∈ locatorUniverse project
              unfold locatorUniverse
              exact List.mem_dedup.mpr (mem_natMapGet_values hres)
            · exact ih _ item h2
          · exact ih _ item hitem

theorem pWD_pushes_length {project : Project}
    {recursiveWorkspaces recursiveNpm : Bool} {vl : List Nat} (ds ext : List Nat) :
    (processWorkspaceDescriptors project recursiveWorkspaces recursiveNpm
      vl ds ext).1.length ≤ ds.length := by
  induction ds generalizing ext with
  | nil => simp [processWorkspaceDescriptors]
  | cons d ds ih =>
    simp only [processWorkspaceDescriptors]
    cases hres : natMapGet project.storedResolutions d with
    | none =>
      dsimp only
      exact Nat.le_trans (ih ext) (Nat.le_succ _)
    | some resolution =>
      dsimp only
      cases hpkg : natMapGet project.storedPackages resolution with
      | none =>
        dsimp only
        exact Nat.le_trans (ih ext) (Nat.le_succ _)
      | some pkg =>
        dsimp only
        cases hws : natMapGet project.workspaceByLocator resolution with
        | some w' =>
          dsimp only
          split
          · simpa using ih ext
          · exact Nat.le_trans (ih ext) (Nat.le_succ _)
        | none =>
          dsimp only
          split
          · simpa using ih (addUnique ext resolution)
          · exact Nat.le_trans (ih (addUnique ext resolution)) (Nat.le_succ _)

theorem pWD_ext_mono {project : Project}
    {recursiveWorkspaces recursiveNpm : Bool} {vl : List Nat} (ds ext : List Nat) :
    ∀ h ∈ ext, h ∈ (processWorkspaceDescriptors project recursiveWorkspaces
      recursiveNpm vl ds ext).2 := by
  induction ds generalizing ext with
  | nil => intro h hm; exact hm
  | cons d ds ih =>
    intro h hm
    simp only [processWorkspaceDescriptors]
    cases hres : natMapGet project.storedResolutions d with
    | none =>
      dsimp only
      exact ih ext h hm
    | some resolution =>
      dsimp only
      cases hpkg : natMapGet project.storedPackages resolution with
      | none =>
        dsimp only
        exact ih ext h hm
      | some pkg =>
        dsimp only
        cases hws : natMapGet project.workspaceByLocator resolution with
        | some w' =>
          dsimp only
          split
          · exact ih ext h hm
          · exact ih ext h hm
        | none =>
          dsimp only
          have hm2 : h ∈ addUnique ext resolution := mem_addUnique.mpr (Or.inl hm)
          split
          · exact ih (addUnique ext resolution) h hm2
          · exact ih (addUnique ext resolution) h hm2

theorem pWD_sound {project : Project} {seeds : List Workspace}
    {includeDev recursiveWorkspaces recursiveNpm : Bool} {w : Workspace}
    (vl : List Nat) (ds ext : List Nat)
    (hw : Reach project seeds includeDev recursiveWorkspaces recursiveNpm (.workspace w))
    (hds : ∀ d ∈ ds, d ∈ getWorkspaceDependencyDescriptors project w includeDev)
    (hext : ∀ h ∈ ext,
      Reach project seeds includeDev recursiveWorkspaces recursiveNpm (.locator h)) :
    (∀ item ∈ (processWorkspaceDescriptors project recursiveWorkspaces recursiveNpm
        vl ds ext).1,
      Reach project seeds includeDev recursiveWorkspaces recursiveNpm item) ∧
    (∀ h ∈ (processWorkspaceDescriptors project recursiveWorkspaces recursiveNpm
        vl ds ext).2,
      Reach project seeds includeDev recursiveWorkspaces recursiveNpm (.locator h)) := by
  induction ds generalizing ext with
  | nil => exact ⟨fun item h => absurd h (List.not_mem_nil item), hext⟩
  | cons d ds ih =>
    have hds' : ∀ d' ∈ ds, d' ∈ getWorkspaceDependencyDescriptors project w includeDev :=
      fun d' hd' => hds d' (List.mem_cons_of_mem _ hd')
    have hdhead : d ∈ getWorkspaceDependencyDescriptors project w includeDev :=
      hds d (List.mem_cons_self _ _)
    simp only [processWorkspaceDescriptors]
    cases hres : natMapGet project.storedResolutions d with
    | none =>
      dsimp only
      exact ih ext hds' hext
    | some resolution =>
      dsimp only
      cases hpkg : natMapGet project.storedPackages resolution with
      | none =>
        dsimp only
        exact ih ext hds' hext
      | some pkg =>
        dsimp only
        cases hws : natMapGet project.workspaceByLocator resolution with
        | some w' =>
          dsimp only
          obtain ⟨ihq, ihe⟩ := ih ext hds' hext
          by_cases hrw : recursiveWorkspaces = true
          · rw [if_pos hrw]
            refine ⟨fun item hitem => ?_, ihe⟩
            rcases List.mem_cons.mp hitem with rfl | h2
            · exact Reach.wsToWs hw hrw hdhead hres hpkg hws
            · exact ihq item h2
          · rw [if_neg hrw]
            exact ⟨ihq, ihe⟩
        | none =>
          dsimp only
          have hreach : Reach project seeds includeDev recursiveWorkspaces recursiveNpm
              (.locator resolution) :=
            Reach.wsToExt hw hdhead hres hpkg hws
          have hext1 : ∀ h ∈ addUnique ext resolution,
              Reach project seeds includeDev recursiveWorkspaces recursiveNpm
                (.locator h) := by
            intro h hm
            rcases mem_addUnique.mp hm with h2 | rfl
            · exact hext h h2
            · exact hreach
          obtain ⟨ihq, ihe⟩ := ih (addUnique ext resolution) hds' hext1
          split
          · refine ⟨fun item hitem => ?_, ihe⟩
            rcases List.mem_cons.mp hitem with rfl | h2
            · exact hreach
            · exact ihq item h2
          · exact ⟨ihq, ihe⟩

theorem pWD_complete {project : Project}
    {recursiveWorkspaces recursiveNpm : Bool} (vl : List Nat) (ds ext : List Nat)
    {d h : Nat} {p : Pkg} (hd : d ∈ ds)
    (hres : natMapGet project.storedResolutions d = some h)
    (hpkg : natMapGet project.storedPackages h = some p) :
    (∀ w', natMapGet project.workspaceByLocator h = some w' →
      recursiveWorkspaces = true →
      QueueItem.workspace w' ∈ (processWorkspaceDescriptors project
        recursiveWorkspaces recursiveNpm vl ds ext).1) ∧
    (natMapGet project.workspaceByLocator h = none →
      h ∈ (processWorkspaceDescriptors project recursiveWorkspaces recursiveNpm
        vl ds ext).2 ∧
      (recursiveNpm = true → h ∈ vl ∨
        QueueItem.locator h ∈ (processWorkspaceDescriptors project
          recursiveWorkspaces recursiveNpm vl ds ext).1)) := by
  induction ds generalizing ext with
  | nil => cases hd
  | cons d₀ ds ih =>
    rcases List.mem_cons.mp hd with rfl | hdtail
    · -- the head descriptor is the one we track
      simp only [processWorkspaceDescriptors, hres, hpkg]
      constructor
      · intro w' hws hrw
        rw [hws]
        dsimp only
        rw [if_pos hrw]
        exact List.mem_cons_self _ _
      · intro hws
        rw [hws]
        dsimp only
        refine ⟨?_, ?_⟩
        · have hm : h ∈ addUnique ext h := mem_addUnique.mpr (Or.inr rfl)
          split
          · exact pWD_ext_mono ds (addUnique ext h) h hm
          · exact pWD_ext_mono ds (addUnique ext h) h hm
        · intro hrn
          by_cases hvl : h ∈ vl
          · exact Or.inl hvl
          · refine Or.inr ?_
            rw [if_pos ⟨hrn, hvl⟩]
            exact List.mem_cons_self _ _
    · -- the tracked descriptor is in the tail
      simp only [processWorkspaceDescriptors]
      cases hres0 : natMapGet project.storedResolutions d₀ with
      | none =>
        dsimp only
        exact ih ext hdtail
      | some resolution0 =>
        dsimp only
        cases hpkg0 : natMapGet project.storedPackages resolution0 with
        | none =>
          dsimp only
          exact ih ext hdtail
        | some pkg0 =>
          dsimp only
          cases hws0 : natMapGet project.workspaceByLocator resolution0 with
          | some w0 =>
            dsimp only
            obtain ⟨ih1, ih2⟩ := ih ext hdtail
            split
            · refine ⟨fun w' hws hrw => List.mem_cons_of_mem _ (ih1 w' hws hrw), ?_⟩
              intro hws
              obtain ⟨he, hq⟩ := ih2 hws
              refine ⟨he, fun hrn => ?_⟩
              rcases hq hrn with h2 | h2
              · exact Or.inl h2
              · exact Or.inr (List.mem_cons_of_mem _ h2)
            · exact ⟨ih1, ih2⟩
          | none =>
            dsimp only
            obtain ⟨ih1, ih2⟩ := ih (addUnique ext resolution0) hdtail
            split
            · refine ⟨fun w' hws hrw => List.mem_cons_of_mem _ (ih1 w' hws hrw), ?_⟩
              intro hws
              obtain ⟨he, hq⟩ := ih2 hws
              refine ⟨he, fun hrn => ?_⟩
              rcases hq hrn with h2 | h2
              · exact Or.inl h2
              · exact Or.inr (List.mem_cons_of_mem _ h2)
            · exact ⟨ih1, ih2⟩

theorem pLD_pushes_wf {project : Project} {seeds : List Workspace}
    {recursiveWorkspaces : Bool} {vl : List Nat} (ds ext : List Nat) :
    ∀ item ∈ (processLocatorDeps project recursiveWorkspaces vl ds ext).1,
      ItemWF project seeds item := by
  induction ds generalizing ext with
  | nil => intro item h; cases h
  | cons d ds ih =>
    intro item hitem
    simp only [processLocatorDeps] at hitem
    cases hres : natMapGet project.storedResolutions d with
    | none =>
      rw [hres] at hitem; dsimp only at hitem
      exact ih ext item hitem
    | some resolution =>
      rw [hres] at hitem; dsimp only at hitem
      cases hpkg : natMapGet project.storedPackages resolution with
      | none =>
        rw [hpkg] at hitem; dsimp only at hitem
        exact ih ext item hitem
      | some pkg =>
        rw [hpkg] at hitem; dsimp only at hitem
        cases hws : natMapGet project.workspaceByLocator resolution with
        | some w' =>
          rw [hws] at hitem; dsimp only at hitem
          split at hitem
          · rcases List.mem_cons.mp hitem with rfl | h2
            · show w' ∈ workspaceOccurs project seeds
              unfold workspaceOccurs
              exact List.mem_append.mpr (Or.inr (mem_natMapGet_values hws))
            · exact ih ext item h2
          · exact ih ext item hitem
        | none =>
          rw [hws] at hitem; dsimp only at hitem
          split at hitem
          · rcases List.mem_cons.mp hitem with rfl | h2
            · show resolution ∈ locatorUniverse project
              unfold locatorUniverse
              exact List.mem_dedup.mpr (mem_natMapGet_values hres)
            · exact ih _ item h2
          · exact ih _ item hitem

theorem pLD_pushes_length {project : Project}
    {recursiveWorkspaces : Bool} {vl : List Nat} (ds ext : List Nat) :
    (processLocatorDeps project recursiveWorkspaces vl ds ext).1.length ≤
      ds.length := by
  induction ds generalizing ext with
  | nil => simp [processLocatorDeps]
  | cons d ds ih =>
    simp only [processLocatorDeps]
    cases hres : natMapGet project.storedResolutions d with
    | none =>
      dsimp only
      exact Nat.le_trans (ih ext) (Nat.le_succ _)
    | some resolution =>
      dsimp only
      cases hpkg : natMapGet project.storedPackages resolution with
      | none =>
        dsimp only
        exact Nat.le_trans (ih ext) (Nat.le_succ _)
      | some pkg =>
        dsimp only
        cases hws : natMapGet project.workspaceByLocator resolution with
        | some w' =>
          dsimp only
          split
          · simpa using ih ext
          · exact Nat.le_trans (ih ext) (Nat.le_succ _)
        | none =>
          dsimp only
          split
          · simpa using ih (addUnique ext resolution)
          · exact Nat.le_trans (ih (addUnique ext resolution)) (Nat.le_succ _)

theorem pLD_ext_mono {project : Project}
    {recursiveWorkspaces : Bool} {vl : List Nat} (ds ext : List Nat) :
    ∀ h ∈ ext, h ∈ (processLocatorDeps project recursiveWorkspaces vl ds ext).2 := by
  induction ds generalizing ext with
  | nil => intro h hm; exact hm
  | cons d ds ih =>
    intro h hm
    simp only [processLocatorDeps]
    cases hres : natMapGet project.storedResolutions d with
    | none =>
      dsimp only
      exact ih ext h hm
    | some resolution =>
      dsimp only
      cases hpkg : natMapGet project.storedPackages resolution with
      | none =>
        dsimp only
        exact ih ext h hm
      | some pkg =>
        dsimp only
        cases hws : natMapGet project.workspaceByLocator resolution with
        | some w' =>
          dsimp only
          split
          · exact ih ext h hm
          · exact ih ext h hm
        | none =>
          dsimp only
          have hm2 : h ∈ addUnique ext resolution := mem_addUnique.mpr (Or.inl hm)
          split
          · exact ih (addUnique ext resolution) h hm2
          · exact ih (addUnique ext resolution) h hm2

theorem pLD_sound {project : Project} {seeds : List Workspace}
    {includeDev recursiveWorkspaces recursiveNpm : Bool} {h₀ : Nat} {p : Pkg}
    (vl : List Nat) (ds ext : List Nat)
    (hrn : recursiveNpm = true)
    (hl : Reach project seeds includeDev recursiveWorkspaces recursiveNpm (.locator h₀))
    (hp : natMapGet project.storedPackages h₀ = some p)
    (hds : ∀ d ∈ ds, d ∈ p.dependencies)
    (hext : ∀ h ∈ ext,
      Reach project seeds includeDev recursiveWorkspaces recursiveNpm (.locator h)) :
    (∀ item ∈ (processLocatorDeps project recursiveWorkspaces vl ds ext).1,
      Reach project seeds includeDev recursiveWorkspaces recursiveNpm item) ∧
    (∀ h ∈ (processLocatorDeps project recursiveWorkspaces vl ds ext).2,
      Reach project seeds includeDev recursiveWorkspaces recursiveNpm (.locator h)) := by
  induction ds generalizing ext with
  | nil => exact ⟨fun item h => absurd h (List.not_mem_nil item), hext⟩
  | cons d ds ih =>
    have hds' : ∀ d' ∈ ds, d' ∈ p.dependencies :=
      fun d' hd' => hds d' (List.mem_cons_of_mem _ hd')
    have hdhead : d ∈ p.dependencies := hds d (List.mem_cons_self _ _)
    simp only [processLocatorDeps]
    cases hres : natMapGet project.storedResolutions d with
    | none =>
      dsimp only
      exact ih ext hds' hext
    | some resolution =>
      dsimp only
      cases hpkg : natMapGet project.storedPackages resolution with
      | none =>
        dsimp only
        exact ih ext hds' hext
      | some pkg =>
        dsimp only
        cases hws : natMapGet project.workspaceByLocator resolution with
        | some w' =>
          dsimp only
          obtain ⟨ihq, ihe⟩ := ih ext hds' hext
          by_cases hrw : recursiveWorkspaces = true
          · rw [if_pos hrw]
            refine ⟨fun item hitem => ?_, ihe⟩
            rcases List.mem_cons.mp hitem with rfl | h2
            · exact Reach.extToWs hrn hrw hl hp hdhead hres hpkg hws
            · exact ihq item h2
          · rw [if_neg hrw]
            exact ⟨ihq, ihe⟩
        | none =>
          dsimp only
          have hreach : Reach project seeds includeDev recursiveWorkspaces recursiveNpm
              (.locator resolution) :=
            Reach.extToExt hrn hl hp hdhead hres hpkg hws
          have hext1 : ∀ h ∈ addUnique ext resolution,
              Reach project seeds includeDev recursiveWorkspaces recursiveNpm
                (.locator h) := by
            intro h hm
            rcases mem_addUnique.mp hm with h2 | rfl
            · exact hext h h2
            · exact hreach
          obtain ⟨ihq, ihe⟩ := ih (addUnique ext resolution) hds' hext1
          split
          · refine ⟨fun item hitem => ?_, ihe⟩
            rcases List.mem_cons.mp hitem with rfl | h2
            · exact hreach
            · exact ihq item h2
          · exact ⟨ihq, ihe⟩

theorem pLD_complete {project : Project}
    {recursiveWorkspaces : Bool} (vl : List Nat) (ds ext : List Nat)
    {d h : Nat} {p : Pkg} (hd : d ∈ ds)
    (hres : natMapGet project.storedResolutions d = some h)
    (hpkg : natMapGet project.storedPackages h = some p) :
    (∀ w', natMapGet project.workspaceByLocator h = some w' →
      recursiveWorkspaces = true →
      QueueItem.workspace w' ∈
        (processLocatorDeps project recursiveWorkspaces vl ds ext).1) ∧
    (natMapGet project.workspaceByLocator h = none →
      h ∈ (processLocatorDeps project recursiveWorkspaces vl ds ext).2 ∧
      (h ∈ vl ∨ QueueItem.locator h ∈
        (processLocatorDeps project recursiveWorkspaces vl ds ext).1)) := by
  induction ds generalizing ext with
  | nil => cases hd
  | cons d₀ ds ih =>
    rcases List.mem_cons.mp hd with rfl | hdtail
    · simp only [processLocatorDeps, hres, hpkg]
      constructor
      · intro w' hws hrw
        rw [hws]
        dsimp only
        rw [if_pos hrw]
        exact List.mem_cons_self _ _
      · intro hws
        rw [hws]
        dsimp only
        refine ⟨?_, ?_⟩
        · have hm : h ∈ addUnique ext h := mem_addUnique.mpr (Or.inr rfl)
          split
          · exact pLD_ext_mono ds (addUnique ext h) h hm
          · exact pLD_ext_mono ds (addUnique ext h) h hm
        · by_cases hvl : h ∈ vl
          · exact Or.inl hvl
          · refine Or.inr ?_
            rw [if_pos hvl]
            exact List.mem_cons_self _ _
    · simp only [processLocatorDeps]
      cases hres0 : natMapGet project.storedResolutions d₀ with
      | none =>
        dsimp only
        exact ih ext hdtail
      | some resolution0 =>
        dsimp only
        cases hpkg0 : natMapGet project.storedPackages resolution0 with
        | none =>
          dsimp only
          exact ih ext hdtail
        | some pkg0 =>
          dsimp only
          cases hws0 : natMapGet project.workspaceByLocator resolution0 with
          | some w0 =>
            dsimp only
            obtain ⟨ih1, ih2⟩ := ih ext hdtail
            split
            · refine ⟨fun w' hws hrw => List.mem_cons_of_mem _ (ih1 w' hws hrw), ?_⟩
              intro hws
              obtain ⟨he, hq⟩ := ih2 hws
              refine ⟨he, ?_⟩
              rcases hq with h2 | h2
              · exact Or.inl h2
              · exact Or.inr (List.mem_cons_of_mem _ h2)
            · exact ⟨ih1, ih2⟩
          | none =>
            dsimp only
            obtain ⟨ih1, ih2⟩ := ih (addUnique ext resolution0) hdtail
            split
            · refine ⟨fun w' hws hrw => List.mem_cons_of_mem _ (ih1 w' hws hrw), ?_⟩
              intro hws
              obtain ⟨he, hq⟩ := ih2 hws
              refine ⟨he, ?_⟩
              rcases hq with h2 | h2
              · exact Or.inl h2
              · exact Or.inr (List.mem_cons_of_mem _ h2)
            · exact ⟨ih1, ih2⟩

theorem filter_not_mem_snoc_length {u : List Nat} (hu : u.Nodup) {c : Nat} (hc : c ∈ u)
    {vis : List Nat} (hcv : c ∉ vis) :
    (u.filter fun x => x ∉ vis ++ [c]).length + 1 =
      (u.filter fun x => x ∉ vis).length := by
  induction u with
  | nil => cases hc
  | cons a t ih =>
    rw [List.nodup_cons] at hu
    rcases List.mem_cons.mp hc with heq | hct
    · subst heq
      have hcong : (t.filter fun x => x ∉ vis ++ [c]) = t.filter fun x => x ∉ vis := by
        refine List.filter_congr fun x hx => ?_
        have hxc : x ≠ c := fun e => hu.1 (e ▸ hx)
        simp [List.mem_append, hxc]
      have hlen := congrArg List.length hcong
      simp [List.mem_append] at hlen
      simp [List.filter_cons, hcv, List.mem_append]
      omega
    · have hac : a ≠ c := fun e => hu.1 (e ▸ hct)
      have hih := ih hu.2 hct
      simp [List.mem_append] at hih
      by_cases hmem : a ∈ vis <;>
        simp [List.filter_cons, hmem, hac, List.mem_append] <;>
        omega

theorem cwd_mem_universe {project : Project} {seeds : List Workspace} {w : Workspace}
    (h : w ∈ workspaceOccurs project seeds) :
    w.cwd ∈ cwdUniverse project seeds := by
  unfold cwdUniverse
  rw [List.mem_dedup]
  unfold workspaceOccurs at h
  rcases List.mem_append.mp h with h2 | h2
  · exact List.mem_append.mpr (Or.inl (List.mem_map.mpr ⟨w, h2, rfl⟩))
  · rcases List.mem_map.mp h2 with ⟨q, hq, rfl⟩
    exact List.mem_append.mpr (Or.inr (List.mem_map.mpr ⟨q, hq, rfl⟩))

theorem collectMeasure_pop_lt (project : Project) (seeds : List Workspace)
    (n : QueueItem) (rest : List QueueItem) (vw vl ext ext' : List Nat) :
    collectMeasure project seeds ⟨rest, vw, vl, ext'⟩ <
      collectMeasure project seeds ⟨n :: rest, vw, vl, ext⟩ := by
  simp only [collectMeasure, List.length_cons]
  omega

theorem collectMeasure_ws_visit_lt (project : Project) (seeds : List Workspace)
    {w : Workspace} (rest pushes : List QueueItem) (vw vl ext ext' : List Nat)
    (hwocc : w ∈ workspaceOccurs project seeds) (hnv : w.cwd ∉ vw)
    (hplen : pushes.length ≤ maxFanout project seeds) :
    collectMeasure project seeds ⟨rest ++ pushes, vw ++ [w.cwd], vl, ext'⟩ <
      collectMeasure project seeds ⟨.workspace w :: rest, vw, vl, ext⟩ := by
  have hdec := filter_not_mem_snoc_length (List.nodup_dedup _)
    (cwd_mem_universe hwocc) hnv
  simp only [collectMeasure, List.length_cons, List.length_append]
  have hexp : ∀ a b f : Nat, (a + 1 + b) * (f + 1) = (a + b) * (f + 1) + (f + 1) := by
    intro a b f; ring
  rw [show ((cwdUniverse project seeds).filter fun x => x ∉ vw).length =
      ((cwdUniverse project seeds).filter fun x => x ∉ vw ++ [w.cwd]).length + 1 from
      hdec.symm]
  rw [hexp]
  omega

theorem collectMeasure_loc_visit_lt (project : Project) (seeds : List Workspace)
    {h : Nat} (rest pushes : List QueueItem) (vw vl ext ext' : List Nat)
    (hocc : h ∈ locatorUniverse project) (hnv : h ∉ vl)
    (hplen : pushes.length ≤ maxFanout project seeds) :
    collectMeasure project seeds ⟨rest ++ pushes, vw, vl ++ [h], ext'⟩ <
      collectMeasure project seeds ⟨.locator h :: rest, vw, vl, ext⟩ := by
  have hdec := filter_not_mem_snoc_length (List.nodup_dedup _) hocc hnv
  simp only [collectMeasure, List.length_cons, List.length_append]
  have hexp : ∀ a b f : Nat, (a + (b + 1)) * (f + 1) = (a + b) * (f + 1) + (f + 1) := by
    intro a b f; ring
  rw [show ((locatorUniverse project).filter fun x => x ∉ vl).length =
      ((locatorUniverse project).filter fun x => x ∉ vl ++ [h]).length + 1 from
      hdec.symm]
  rw [hexp]
  omega

theorem collectGo_state_mono (project : Project)
    (includeDev recursiveWorkspaces recursiveNpm : Bool) :
    ∀ (fuel : Nat) (s : CollectState),
      (∀ c ∈ s.visitedWorkspaceCwds,
        c ∈ (collectGo project includeDev recursiveWorkspaces recursiveNpm
          fuel s).visitedWorkspaceCwds) ∧
      (∀ h ∈ s.visitedLocatorHashes,
        h ∈ (collectGo project includeDev recursiveWorkspaces recursiveNpm
          fuel s).visitedLocatorHashes) ∧
      (∀ h ∈ s.external,
        h ∈ (collectGo project includeDev recursiveWorkspaces recursiveNpm
          fuel s).external) := by
  intro fuel
  induction fuel with
  | zero => exact fun s => ⟨fun c hc => hc, fun h hh => hh, fun h hh => hh⟩
  | succ fuel ih =>
    rintro ⟨queue, vw, vl, ext⟩
    cases queue with
    | nil => exact ⟨fun c hc => hc, fun h hh => hh, fun h hh => hh⟩
    | cons node rest =>
      cases node with
      | workspace w =>
        simp only [collectGo]
        by_cases hv : w.cwd ∈ vw
        · rw [if_pos hv]
          exact ih ⟨rest, vw, vl, ext⟩
        · rw [if_neg hv]
          obtain ⟨ih1, ih2, ih3⟩ := ih ⟨rest ++ (processWorkspaceDescriptors project
            recursiveWorkspaces recursiveNpm vl
            (getWorkspaceDependencyDescriptors project w includeDev) ext).1,
            vw ++ [w.cwd], vl, (processWorkspaceDescriptors project
            recursiveWorkspaces recursiveNpm vl
            (getWorkspaceDependencyDescriptors project w includeDev) ext).2⟩
          refine ⟨fun c hc => ih1 c (List.mem_append.mpr (Or.inl hc)),
            fun h hh => ih2 h hh,
            fun h hh => ih3 h (pWD_ext_mono _ ext h hh)⟩
      | locator locatorHash =>
        simp only [collectGo]
        by_cases hv : locatorHash ∈ vl
        · rw [if_pos hv]
          exact ih ⟨rest, vw, vl, ext⟩
        · rw [if_neg hv]
          cases hpkg : natMapGet project.storedPackages locatorHash with
          | none =>
            dsimp only
            obtain ⟨ih1, ih2, ih3⟩ := ih ⟨rest, vw, vl ++ [locatorHash], ext⟩
            exact ⟨ih1, fun h hh => ih2 h (List.mem_append.mpr (Or.inl hh)), ih3⟩
          | some pkg =>
            dsimp only
            by_cases hrn : recursiveNpm = false
            · rw [if_pos hrn]
              obtain ⟨ih1, ih2, ih3⟩ := ih ⟨rest, vw, vl ++ [locatorHash], ext⟩
              exact ⟨ih1, fun h hh => ih2 h (List.mem_append.mpr (Or.inl hh)), ih3⟩
            · rw [if_neg hrn]
              obtain ⟨ih1, ih2, ih3⟩ := ih ⟨rest ++ (processLocatorDeps project
                recursiveWorkspaces (vl ++ [locatorHash]) pkg.dependencies ext).1,
                vw, vl ++ [locatorHash], (processLocatorDeps project
                recursiveWorkspaces (vl ++ [locatorHash]) pkg.dependencies ext).2⟩
              exact ⟨ih1, fun h hh => ih2 h (List.mem_append.mpr (Or.inl hh)),
                fun h hh => ih3 h (pLD_ext_mono _ ext h hh)⟩

theorem descriptors_length_le {project : Project} {seeds : List Workspace}
    {w : Workspace} (includeDev : Bool) (hwocc : w ∈ workspaceOccurs project seeds) :
    (getWorkspaceDependencyDescriptors project w includeDev).length ≤
      maxFanout project seeds := by
  cases includeDev
  · exact (workspace_fanout_le hwocc).2
  · exact (workspace_fanout_le hwocc).1

theorem queue_length_le_measure (project : Project) (seeds : List Workspace)
    (s : CollectState) : s.queue.length ≤ collectMeasure project seeds s := by
  simp only [collectMeasure]
  omega

theorem collectGo_queue_accounted (project : Project) (seeds : List Workspace)
    (includeDev recursiveWorkspaces recursiveNpm : Bool) :
    ∀ (fuel : Nat) (s : CollectState),
      collectMeasure project seeds s ≤ fuel →
      (∀ item ∈ s.queue, ItemWF project seeds item) →
      (∀ w : Workspace, QueueItem.workspace w ∈ s.queue →
        w.cwd ∈ (collectGo project includeDev recursiveWorkspaces recursiveNpm
          fuel s).visitedWorkspaceCwds) ∧
      (∀ h : Nat, QueueItem.locator h ∈ s.queue →
        h ∈ (collectGo project includeDev recursiveWorkspaces recursiveNpm
          fuel s).visitedLocatorHashes) := by
  intro fuel
  induction fuel with
  | zero =>
    intro s hfuel _
    have hq : s.queue.length = 0 :=
      Nat.eq_zero_of_le_zero (Nat.le_trans (queue_length_le_measure project seeds s) hfuel)
    have hqnil : s.queue = [] := List.length_eq_zero.mp hq
    constructor
    · intro w hw; rw [hqnil] at hw; cases hw
    · intro h hh; rw [hqnil] at hh; cases hh
  | succ fuel ih =>
    rintro ⟨queue, vw, vl, ext⟩ hfuel hwf
    cases queue with
    | nil =>
      constructor
      · intro w hw; cases hw
      · intro h hh; cases hh
    | cons node rest =>
      have hwfrest : ∀ item ∈ rest, ItemWF project seeds item :=
        fun item hi => hwf item (List.mem_cons_of_mem _ hi)
      cases node with
      | workspace w =>
        have hwocc : w ∈ workspaceOccurs project seeds :=
          hwf (QueueItem.workspace w) (List.mem_cons_self _ _)
        simp only [collectGo]
        by_cases hv : w.cwd ∈ vw
        · rw [if_pos hv]
          have hm : collectMeasure project seeds ⟨rest, vw, vl, ext⟩ ≤ fuel := by
            have := collectMeasure_pop_lt project seeds (QueueItem.workspace w)
              rest vw vl ext ext
            omega
          obtain ⟨ihw, ihl⟩ := ih ⟨rest, vw, vl, ext⟩ hm hwfrest
          obtain ⟨mw, ml, _⟩ := collectGo_state_mono project includeDev
            recursiveWorkspaces recursiveNpm fuel ⟨rest, vw, vl, ext⟩
          constructor
          · intro w' hw'
            rcases List.mem_cons.mp hw' with heq | h2
            · obtain rfl : w' = w := by injection heq
              exact mw _ hv
            · exact ihw w' h2
          · intro h hh
            rcases List.mem_cons.mp hh with heq | h2
            · cases heq
            · exact ihl h h2
        · rw [if_neg hv]
          set pushes := (processWorkspaceDescriptors project recursiveWorkspaces
            recursiveNpm vl (getWorkspaceDependencyDescriptors project w includeDev)
            ext).1 with hpushes
          set ext' := (processWorkspaceDescriptors project recursiveWorkspaces
            recursiveNpm vl (getWorkspaceDependencyDescriptors project w includeDev)
            ext).2 with hext'
          have hplen : pushes.length ≤ maxFanout project seeds :=
            Nat.le_trans (pWD_pushes_length _ ext) (descriptors_length_le includeDev hwocc)
          have hm : collectMeasure project seeds
              ⟨rest ++ pushes, vw ++ [w.cwd], vl, ext'⟩ ≤ fuel := by
            have := collectMeasure_ws_visit_lt project seeds rest pushes vw vl ext ext'
              hwocc hv hplen
            omega
          have hwf' : ∀ item ∈ rest ++ pushes, ItemWF project seeds item := by
            intro item hi
            rcases List.mem_append.mp hi with h2 | h2
            · exact hwfrest item h2
            · exact pWD_pushes_wf _ ext item h2
          obtain ⟨ihw, ihl⟩ := ih ⟨rest ++ pushes, vw ++ [w.cwd], vl, ext'⟩ hm hwf'
          obtain ⟨mw, ml, _⟩ := collectGo_state_mono project includeDev
            recursiveWorkspaces recursiveNpm fuel ⟨rest ++ pushes, vw ++ [w.cwd], vl, ext'⟩
          constructor
          · intro w' hw'
            rcases List.mem_cons.mp hw' with heq | h2
            · obtain rfl : w' = w := by injection heq
              exact mw _ (List.mem_append.mpr (Or.inr (List.mem_singleton.mpr rfl)))
            · exact ihw w' (List.mem_append.mpr (Or.inl h2))
          · intro h hh
            rcases List.mem_cons.mp hh with heq | h2
            · cases heq
            · exact ihl h (List.mem_append.mpr (Or.inl h2))
      | locator locatorHash =>
        have hlocc : locatorHash ∈ locatorUniverse project :=
          hwf (QueueItem.locator locatorHash) (List.mem_cons_self _ _)
        simp only [collectGo]
        by_cases hv : locatorHash ∈ vl
        · rw [if_pos hv]
          have hm : collectMeasure project seeds ⟨rest, vw, vl, ext⟩ ≤ fuel := by
            have := collectMeasure_pop_lt project seeds (QueueItem.locator locatorHash)
              rest vw vl ext ext
            omega
          obtain ⟨ihw, ihl⟩ := ih ⟨rest, vw, vl, ext⟩ hm hwfrest
          obtain ⟨mw, ml, _⟩ := collectGo_state_mono project includeDev
            recursiveWorkspaces recursiveNpm fuel ⟨rest, vw, vl, ext⟩
          constructor
          · intro w' hw'
            rcases List.mem_cons.mp hw' with heq | h2
            · cases heq
            · exact ihw w' h2
          · intro h hh
            rcases List.mem_cons.mp hh with heq | h2
            · obtain rfl : h = locatorHash := by injection heq
              exact ml h hv
            · exact ihl h h2
        · rw [if_neg hv]
          have hmno : collectMeasure project seeds ⟨rest, vw, vl ++ [locatorHash], ext⟩
              ≤ fuel := by
            have := collectMeasure_loc_visit_lt project seeds rest [] vw vl ext ext
              hlocc hv (by simp)
            simp only [List.append_nil] at this
            omega
          cases hpkg : natMapGet project.storedPackages locatorHash with
          | none =>
            dsimp only
            obtain ⟨ihw, ihl⟩ := ih ⟨rest, vw, vl ++ [locatorHash], ext⟩ hmno hwfrest
            obtain ⟨mw, ml, _⟩ := collectGo_state_mono project includeDev
              recursiveWorkspaces recursiveNpm fuel ⟨rest, vw, vl ++ [locatorHash], ext⟩
            constructor
            · intro w' hw'
              rcases List.mem_cons.mp hw' with heq | h2
              · cases heq
              · exact ihw w' h2
            · intro h hh
              rcases List.mem_cons.mp hh with heq | h2
              · obtain rfl : h = locatorHash := by injection heq
                exact ml h (List.mem_append.mpr (Or.inr (List.mem_singleton.mpr rfl)))
              · exact ihl h h2
          | some pkg =>
            dsimp only
            by_cases hrn : recursiveNpm = false
            · rw [if_pos hrn]
              obtain ⟨ihw, ihl⟩ := ih ⟨rest, vw, vl ++ [locatorHash], ext⟩ hmno hwfrest
              obtain ⟨mw, ml, _⟩ := collectGo_state_mono project includeDev
                recursiveWorkspaces recursiveNpm fuel ⟨rest, vw, vl ++ [locatorHash], ext⟩
              constructor
              · intro w' hw'
                rcases List.mem_cons.mp hw' with heq | h2
                · cases heq
                · exact ihw w' h2
              · intro h hh
                rcases List.mem_cons.mp hh with heq | h2
                · obtain rfl : h = locatorHash := by injection heq
                  exact ml h (List.mem_append.mpr (Or.inr (List.mem_singleton.mpr rfl)))
                · exact ihl h h2
            · rw [if_neg hrn]
              set pushes := (processLocatorDeps project recursiveWorkspaces
                (vl ++ [locatorHash]) pkg.dependencies ext).1 with hpushes
              set ext' := (processLocatorDeps project recursiveWorkspaces
                (vl ++ [locatorHash]) pkg.dependencies ext).2 with hext'
              have hplen : pushes.length ≤ maxFanout project seeds :=
                Nat.le_trans (pLD_pushes_length _ ext) (pkg_fanout_le seeds hpkg)
              have hm : collectMeasure project seeds
                  ⟨rest ++ pushes, vw, vl ++ [locatorHash], ext'⟩ ≤ fuel := by
                have := collectMeasure_loc_visit_lt project seeds rest pushes vw vl
                  ext ext' hlocc hv hplen
                omega
              have hwf' : ∀ item ∈ rest ++ pushes, ItemWF project seeds item := by
                intro item hi
                rcases List.mem_append.mp hi with h2 | h2
                · exact hwfrest item h2
                · exact pLD_pushes_wf _ ext item h2
              obtain ⟨ihw, ihl⟩ := ih ⟨rest ++ pushes, vw, vl ++ [locatorHash], ext'⟩
                hm hwf'
              obtain ⟨mw, ml, _⟩ := collectGo_state_mono project includeDev
                recursiveWorkspaces recursiveNpm fuel
                ⟨rest ++ pushes, vw, vl ++ [locatorHash], ext'⟩
              constructor
              · intro w' hw'
                rcases List.mem_cons.mp hw' with heq | h2
                · cases heq
                · exact ihw w' (List.mem_append.mpr (Or.inl h2))
              · intro h hh
                rcases List.mem_cons.mp hh with heq | h2
                · obtain rfl : h = locatorHash := by injection heq
                  exact ml h (List.mem_append.mpr (Or.inr (List.mem_singleton.mpr rfl)))
                · exact ihl h (List.mem_append.mpr (Or.inl h2))

theorem collectGo_saturated (project : Project) (seeds : List Workspace)
    (includeDev recursiveWorkspaces recursiveNpm : Bool) :
    ∀ (fuel : Nat) (s : CollectState),
      collectMeasure project seeds s ≤ fuel →
      (∀ item ∈ s.queue, ItemWF project seeds item) →
      (∀ c ∈ (collectGo project includeDev recursiveWorkspaces recursiveNpm
          fuel s).visitedWorkspaceCwds,
        c ∉ s.visitedWorkspaceCwds →
        ∃ w, w ∈ workspaceOccurs project seeds ∧ w.cwd = c ∧
          WsContribOK project includeDev recursiveWorkspaces recursiveNpm
            (collectGo project includeDev recursiveWorkspaces recursiveNpm fuel s) w) ∧
      (∀ h ∈ (collectGo project includeDev recursiveWorkspaces recursiveNpm
          fuel s).visitedLocatorHashes,
        h ∉ s.visitedLocatorHashes →
        recursiveNpm = true →
        LocContribOK project recursiveWorkspaces
          (collectGo project includeDev recursiveWorkspaces recursiveNpm fuel s) h) := by
  intro fuel
  induction fuel with
  | zero =>
    intro s _ _
    exact ⟨fun c hc hnc => absurd hc hnc, fun h hh hnh => absurd hh hnh⟩
  | succ fuel ih =>
    rintro ⟨queue, vw, vl, ext⟩ hfuel hwf
    cases queue with
    | nil =>
      exact ⟨fun c hc hnc => absurd hc hnc, fun h hh hnh => absurd hh hnh⟩
    | cons node rest =>
      have hwfrest : ∀ item ∈ rest, ItemWF project seeds item :=
        fun item hi => hwf item (List.mem_cons_of_mem _ hi)
      cases node with
      | workspace w =>
        have hwocc : w ∈ workspaceOccurs project seeds :=
          hwf (QueueItem.workspace w) (List.mem_cons_self _ _)
        simp only [collectGo]
        by_cases hv : w.cwd ∈ vw
        · rw [if_pos hv]
          have hm : collectMeasure project seeds ⟨rest, vw, vl, ext⟩ ≤ fuel := by
            have := collectMeasure_pop_lt project seeds (QueueItem.workspace w)
              rest vw vl ext ext
            omega
          exact ih ⟨rest, vw, vl, ext⟩ hm hwfrest
        · rw [if_neg hv]
          set descriptors := getWorkspaceDependencyDescriptors project w includeDev
            with hdescriptors
          set pushes := (processWorkspaceDescriptors project recursiveWorkspaces
            recursiveNpm vl descriptors ext).1 with hpushes
          set ext' := (processWorkspaceDescriptors project recursiveWorkspaces
            recursiveNpm vl descriptors ext).2 with hext'
          have hplen : pushes.length ≤ maxFanout project seeds :=
            Nat.le_trans (pWD_pushes_length _ ext) (descriptors_length_le includeDev hwocc)
          have hm : collectMeasure project seeds
              ⟨rest ++ pushes, vw ++ [w.cwd], vl, ext'⟩ ≤ fuel := by
            have := collectMeasure_ws_visit_lt project seeds rest pushes vw vl ext ext'
              hwocc hv hplen
            omega
          have hwf' : ∀ item ∈ rest ++ pushes, ItemWF project seeds item := by
            intro item hi
            rcases List.mem_append.mp hi with h2 | h2
            · exact hwfrest item h2
            · exact pWD_pushes_wf _ ext item h2
          obtain ⟨ihw, ihl⟩ := ih ⟨rest ++ pushes, vw ++ [w.cwd], vl, ext'⟩ hm hwf'
          obtain ⟨accw, accl⟩ := collectGo_queue_accounted project seeds includeDev
            recursiveWorkspaces recursiveNpm fuel
            ⟨rest ++ pushes, vw ++ [w.cwd], vl, ext'⟩ hm hwf'
          obtain ⟨mw, ml, mext⟩ := collectGo_state_mono project includeDev
            recursiveWorkspaces recursiveNpm fuel ⟨rest ++ pushes, vw ++ [w.cwd], vl, ext'⟩
          constructor
          · intro c hc hnc
            by_cases hcw : c = w.cwd
            · subst hcw
              refine ⟨w, hwocc, rfl, ?_⟩
              intro d hd h p hres hpkg
              obtain ⟨comp1, comp2⟩ :=
                @pWD_complete project recursiveWorkspaces recursiveNpm
                  vl descriptors ext d h p hd hres hpkg
              constructor
              · intro w' hws hrw
                exact accw w' (List.mem_append.mpr (Or.inr (comp1 w' hws hrw)))
              · intro hws
                obtain ⟨hmemext, hq⟩ := comp2 hws
                refine ⟨mext h hmemext, fun hrn => ?_⟩
                rcases hq hrn with h2 | h2
                · exact ml h h2
                · exact accl h (List.mem_append.mpr (Or.inr h2))
            · refine ihw c hc ?_
              intro hc2
              rcases List.mem_append.mp hc2 with h2 | h2
              · exact hnc h2
              · exact hcw (List.mem_singleton.mp h2)
          · intro h hh hnh
            exact ihl h hh hnh
      | locator locatorHash =>
        have hlocc : locatorHash ∈ locatorUniverse project :=
          hwf (QueueItem.locator locatorHash) (List.mem_cons_self _ _)
        simp only [collectGo]
        by_cases hv : locatorHash ∈ vl
        · rw [if_pos hv]
          have hm : collectMeasure project seeds ⟨rest, vw, vl, ext⟩ ≤ fuel := by
            have := collectMeasure_pop_lt project seeds (QueueItem.locator locatorHash)
              rest vw vl ext ext
            omega
          exact ih ⟨rest, vw, vl, ext⟩ hm hwfrest
        · rw [if_neg hv]
          have hmno : collectMeasure project seeds ⟨rest, vw, vl ++ [locatorHash], ext⟩
              ≤ fuel := by
            have := collectMeasure_loc_visit_lt project seeds rest [] vw vl ext ext
              hlocc hv (by simp)
            simp only [List.append_nil] at this
            omega
          cases hpkg : natMapGet project.storedPackages locatorHash with
          | none =>
            dsimp only
            obtain ⟨ihw, ihl⟩ := ih ⟨rest, vw, vl ++ [locatorHash], ext⟩ hmno hwfrest
            refine ⟨ihw, ?_⟩
            intro h hh hnh hrn
            by_cases hhl : h = locatorHash
            · subst hhl
              intro p hp
              rw [hpkg] at hp
              cases hp
            · refine ihl h hh ?_ hrn
              intro hc2
              rcases List.mem_append.mp hc2 with h2 | h2
              · exact hnh h2
              · exact hhl (List.mem_singleton.mp h2)
          | some pkg =>
            dsimp only
            by_cases hrnf : recursiveNpm = false
            · rw [if_pos hrnf]
              obtain ⟨ihw, ihl⟩ := ih ⟨rest, vw, vl ++ [locatorHash], ext⟩ hmno hwfrest
              refine ⟨ihw, ?_⟩
              intro h hh hnh hrn
              rw [hrnf] at hrn
              cases hrn
            · rw [if_neg hrnf]
              set pushes := (processLocatorDeps project recursiveWorkspaces
                (vl ++ [locatorHash]) pkg.dependencies ext).1 with hpushes
              set ext' := (processLocatorDeps project recursiveWorkspaces
                (vl ++ [locatorHash]) pkg.dependencies ext).2 with hext'
              have hplen : pushes.length ≤ maxFanout project seeds :=
                Nat.le_trans (pLD_pushes_length _ ext) (pkg_fanout_le seeds hpkg)
              have hm : collectMeasure project seeds
                  ⟨rest ++ pushes, vw, vl ++ [locatorHash], ext'⟩ ≤ fuel := by
                have := collectMeasure_loc_visit_lt project seeds rest pushes vw vl
                  ext ext' hlocc hv hplen
                omega
              have hwf' : ∀ item ∈ rest ++ pushes, ItemWF project seeds item := by
                intro item hi
                rcases List.mem_append.mp hi with h2 | h2
                · exact hwfrest item h2
                · exact pLD_pushes_wf _ ext item h2
              obtain ⟨ihw, ihl⟩ := ih ⟨rest ++ pushes, vw, vl ++ [locatorHash], ext'⟩
                hm hwf'
              obtain ⟨accw, accl⟩ := collectGo_queue_accounted project seeds includeDev
                recursiveWorkspaces recursiveNpm fuel
                ⟨rest ++ pushes, vw, vl ++ [locatorHash], ext'⟩ hm hwf'
              obtain ⟨mw, ml, mext⟩ := collectGo_state_mono project includeDev
                recursiveWorkspaces recursiveNpm fuel
                ⟨rest ++ pushes, vw, vl ++ [locatorHash], ext'⟩
              refine ⟨ihw, ?_⟩
              intro h hh hnh hrn
              by_cases hhl : h = locatorHash
              · subst hhl
                intro p' hp'
                rw [hpkg] at hp'
                obtain rfl : pkg = p' := Option.some.inj hp'
                intro d hd h' p'' hres' hpkg'
                obtain ⟨c1, c2⟩ :=
                  @pLD_complete project recursiveWorkspaces
                    (vl ++ [h]) pkg.dependencies ext d h' p'' hd hres' hpkg'
                constructor
                · intro w' hws hrw
                  exact accw w' (List.mem_append.mpr (Or.inr (c1 w' hws hrw)))
                · intro hws
                  obtain ⟨hmemext, hq⟩ := c2 hws
                  refine ⟨mext h' hmemext, ?_⟩
                  rcases hq with h2 | h2
                  · exact ml h' h2
                  · exact accl h' (List.mem_append.mpr (Or.inr h2))
              · refine ihl h hh ?_ hrn
                intro hc2
                rcases List.mem_append.mp hc2 with h2 | h2
                · exact hnh h2
                · exact hhl (List.mem_singleton.mp h2)

theorem collectGo_reach_sound (project : Project) (seeds : List Workspace)
    (includeDev recursiveWorkspaces recursiveNpm : Bool) :
    ∀ (fuel : Nat) (s : CollectState),
      (∀ item ∈ s.queue,
        Reach project seeds includeDev recursiveWorkspaces recursiveNpm item) →
      (∀ h ∈ s.external,
        Reach project seeds includeDev recursiveWorkspaces recursiveNpm (.locator h)) →
      ∀ h ∈ (collectGo project includeDev recursiveWorkspaces recursiveNpm
        fuel s).external,
        Reach project seeds includeDev recursiveWorkspaces recursiveNpm (.locator h) := by
  intro fuel
  induction fuel with
  | zero => exact fun s _ hext => hext
  | succ fuel ih =>
    rintro ⟨queue, vw, vl, ext⟩ hq hext
    cases queue with
    | nil => exact hext
    | cons node rest =>
      have hqrest : ∀ item ∈ rest,
          Reach project seeds includeDev recursiveWorkspaces recursiveNpm item :=
        fun item hi => hq item (List.mem_cons_of_mem _ hi)
      cases node with
      | workspace w =>
        have hw : Reach project seeds includeDev recursiveWorkspaces recursiveNpm
            (.workspace w) := hq _ (List.mem_cons_self _ _)
        simp only [collectGo]
        by_cases hv : w.cwd ∈ vw
        · rw [if_pos hv]
          exact ih ⟨rest, vw, vl, ext⟩ hqrest hext
        · rw [if_neg hv]
          obtain ⟨hpush, hext'⟩ := pWD_sound vl
            (getWorkspaceDependencyDescriptors project w includeDev) ext hw
            (fun d hd => hd) hext
          refine ih _ ?_ hext'
          intro item hi
          rcases List.mem_append.mp hi with h2 | h2
          · exact hqrest item h2
          · exact hpush item h2
      | locator locatorHash =>
        have hl : Reach project seeds includeDev recursiveWorkspaces recursiveNpm
            (.locator locatorHash) := hq _ (List.mem_cons_self _ _)
        simp only [collectGo]
        by_cases hv : locatorHash ∈ vl
        · rw [if_pos hv]
          exact ih ⟨rest, vw, vl, ext⟩ hqrest hext
        · rw [if_neg hv]
          cases hpkg : natMapGet project.storedPackages locatorHash with
          | none =>
            dsimp only
            exact ih ⟨rest, vw, vl ++ [locatorHash], ext⟩ hqrest hext
          | some pkg =>
            dsimp only
            by_cases hrnf : recursiveNpm = false
            · rw [if_pos hrnf]
              exact ih ⟨rest, vw, vl ++ [locatorHash], ext⟩ hqrest hext
            · rw [if_neg hrnf]
              have hrn : recursiveNpm = true := by
                revert hrnf; cases recursiveNpm <;> simp
              obtain ⟨hpush, hext'⟩ := pLD_sound (vl ++ [locatorHash])
                pkg.dependencies ext hrn hl hpkg (fun d hd => hd) hext
              refine ih _ ?_ hext'
              intro item hi
              rcases List.mem_append.mp hi with h2 | h2
              · exact hqrest item h2
              · exact hpush item h2

theorem reach_ws_occurs {project : Project} {seeds : List Workspace}
    {includeDev recursiveWorkspaces recursiveNpm : Bool} {item : QueueItem}
    (hr : Reach project seeds includeDev recursiveWorkspaces recursiveNpm item) :
    ∀ w : Workspace, item = .workspace w → w ∈ workspaceOccurs project seeds := by
  induction hr with
  | seed hw =>
    intro w' heq
    obtain rfl : w' = _ := by injection heq.symm
    exact List.mem_append.mpr (Or.inl hw)
  | wsToWs _ _ _ _ _ hws _ =>
    intro w' heq
    obtain rfl : w' = _ := by injection heq.symm
    exact List.mem_append.mpr (Or.inr (mem_natMapGet_values hws))
  | wsToExt _ _ _ _ _ _ => exact fun w' heq => by cases heq
  | extToWs _ _ _ _ _ _ _ hws _ =>
    intro w' heq
    obtain rfl : w' = _ := by injection heq.symm
    exact List.mem_append.mpr (Or.inr (mem_natMapGet_values hws))
  | extToExt _ _ _ _ _ _ _ _ => exact fun w' heq => by cases heq

theorem collectFuel_ge_init (project : Project) (seeds : List Workspace) :
    collectMeasure project seeds ⟨seeds.map QueueItem.workspace, [], [], []⟩ ≤
      collectFuel project seeds := by
  have hfil : ∀ u : List Nat, (u.filter fun x => x ∉ ([] : List Nat)) = u :=
    fun u => List.filter_eq_self.mpr (by simp)
  simp only [collectMeasure, collectFuel, List.length_map, hfil]
  have hdist := Nat.add_mul (cwdUniverse project seeds).length
    (locatorUniverse project).length (maxFanout project seeds + 1)
  omega

theorem collect_reach_complete (project : Project) (seeds : List Workspace)
    (includeDev recursiveWorkspaces recursiveNpm : Bool)
    (hinj : CwdInjective project seeds) {item : QueueItem}
    (hr : Reach project seeds includeDev recursiveWorkspaces recursiveNpm item) :
    (∀ w, item = QueueItem.workspace w →
      w.cwd ∈ (collectGo project includeDev recursiveWorkspaces recursiveNpm
        (collectFuel project seeds)
        ⟨seeds.map QueueItem.workspace, [], [], []⟩).visitedWorkspaceCwds) ∧
    (∀ h, item = QueueItem.locator h →
      h ∈ (collectGo project includeDev recursiveWorkspaces recursiveNpm
        (collectFuel project seeds)
        ⟨seeds.map QueueItem.workspace, [], [], []⟩).external ∧
      (recursiveNpm = true →
        h ∈ (collectGo project includeDev recursiveWorkspaces recursiveNpm
          (collectFuel project seeds)
          ⟨seeds.map QueueItem.workspace, [], [], []⟩).visitedLocatorHashes)) := by
  have hwfinit : ∀ it ∈ seeds.map QueueItem.workspace, ItemWF project seeds it := by
    intro it hi
    rcases List.mem_map.mp hi with ⟨w, hw, rfl⟩
    exact List.mem_append.mpr (Or.inl hw)
  have hfuel := collectFuel_ge_init project seeds
  obtain ⟨satw, satl⟩ := collectGo_saturated project seeds includeDev
    recursiveWorkspaces recursiveNpm (collectFuel project seeds)
    ⟨seeds.map QueueItem.workspace, [], [], []⟩ hfuel hwfinit
  obtain ⟨accw, accl⟩ := collectGo_queue_accounted project seeds includeDev
    recursiveWorkspaces recursiveNpm (collectFuel project seeds)
    ⟨seeds.map QueueItem.workspace, [], [], []⟩ hfuel hwfinit
  induction hr with
  | seed hw =>
    constructor
    · intro w' heq
      obtain rfl : w' = _ := by injection heq.symm
      exact accw w' (List.mem_map.mpr ⟨w', hw, rfl⟩)
    · intro h heq; cases heq
  | wsToWs hr' hrw hd hres hpkg hws ih =>
    rename_i w d h p w'
    constructor
    · intro w'' heq
      obtain rfl : w'' = w' := by injection heq.symm
      have hcwd : w.cwd ∈ (collectGo project includeDev recursiveWorkspaces
          recursiveNpm (collectFuel project seeds)
          ⟨seeds.map QueueItem.workspace, [], [], []⟩).visitedWorkspaceCwds :=
        ih.1 w rfl
      obtain ⟨w₀, hocc₀, hcwd₀, hcontrib⟩ := satw w.cwd hcwd (List.not_mem_nil _)
      have hwocc : w ∈ workspaceOccurs project seeds := reach_ws_occurs hr' w rfl
      obtain rfl : w₀ = w := hinj w₀ hocc₀ w hwocc hcwd₀
      exact (hcontrib d hd h p hres hpkg).1 _ hws hrw
    · intro h' heq; cases heq
  | wsToExt hr' hd hres hpkg hws ih =>
    rename_i w d h p
    constructor
    · intro w' heq; cases heq
    · intro h' heq
      obtain rfl : h' = h := by injection heq.symm
      have hcwd := ih.1 w rfl
      obtain ⟨w₀, hocc₀, hcwd₀, hcontrib⟩ := satw w.cwd hcwd (List.not_mem_nil _)
      have hwocc : w ∈ workspaceOccurs project seeds := reach_ws_occurs hr' w rfl
      obtain rfl : w₀ = w := hinj w₀ hocc₀ w hwocc hcwd₀
      exact (hcontrib d hd h' p hres hpkg).2 hws
  | extToWs hrn hrw hr' hpkg hd hres hpkg' hws ih =>
    rename_i h p d h' p' w'
    constructor
    · intro w'' heq
      obtain rfl : w'' = w' := by injection heq.symm
      have hvl := (ih.2 h rfl).2 hrn
      have hcontrib := satl h hvl (List.not_mem_nil _) hrn
      exact (hcontrib p hpkg d hd h' p' hres hpkg').1 _ hws hrw
    · intro h'' heq; cases heq
  | extToExt hrn hr' hpkg hd hres hpkg' hws ih =>
    rename_i h p d h' p'
    constructor
    · intro w'' heq; cases heq
    · intro h'' heq
      obtain rfl : h'' = h' := by injection heq.symm
      have hvl := (ih.2 h rfl).2 hrn
      have hcontrib := satl h hvl (List.not_mem_nil _) hrn
      obtain ⟨he, hl⟩ := (hcontrib p hpkg d hd h'' p' hres hpkg').2 hws
      exact ⟨he, fun _ => hl⟩

theorem collect_mem_iff_reach (project : Project) (seeds : List Workspace)
    (includeDev recursiveWorkspaces recursiveNpm : Bool)
    (hinj : CwdInjective project seeds) (h : Nat) :
    h ∈ collectExternalLocatorHashes project seeds includeDev recursiveWorkspaces
      recursiveNpm ↔
    Reach project seeds includeDev recursiveWorkspaces recursiveNpm (.locator h) := by
  constructor
  · intro hm
    refine collectGo_reach_sound project seeds includeDev recursiveWorkspaces
      recursiveNpm (collectFuel project seeds)
      ⟨seeds.map QueueItem.workspace, [], [], []⟩ ?_ ?_ h hm
    · intro item hi
      rcases List.mem_map.mp hi with ⟨w, hw, rfl⟩
      exact Reach.seed hw
    · intro h' hh
      cases hh
  · intro hr
    exact ((collect_reach_complete project seeds includeDev recursiveWorkspaces
      recursiveNpm hinj hr).2 h rfl).1

theorem reach_mono_rn {project : Project} {seeds : List Workspace}
    {includeDev recursiveWorkspaces : Bool} {item : QueueItem}
    (hr : Reach project seeds includeDev recursiveWorkspaces false item) :
    Reach project seeds includeDev recursiveWorkspaces true item := by
  induction hr with
  | seed hw => exact Reach.seed hw
  | wsToWs _ hrw hd hres hpkg hws ih => exact Reach.wsToWs ih hrw hd hres hpkg hws
  | wsToExt _ hd hres hpkg hws ih => exact Reach.wsToExt ih hd hres hpkg hws
  | extToWs hrn _ _ _ _ _ _ _ _ => cases hrn
  | extToExt hrn _ _ _ _ _ _ _ => cases hrn

theorem reach_mono_rw {project : Project} {seeds : List Workspace}
    {includeDev recursiveNpm : Bool} {item : QueueItem}
    (hr : Reach project seeds includeDev false recursiveNpm item) :
    Reach project seeds includeDev true recursiveNpm item := by
  induction hr with
  | seed hw => exact Reach.seed hw
  | wsToWs _ hrw _ _ _ _ _ => cases hrw
  | wsToExt _ hd hres hpkg hws ih => exact Reach.wsToExt ih hd hres hpkg hws
  | extToWs _ hrw _ _ _ _ _ _ _ => cases hrw
  | extToExt hrn _ hpkg hd hres hpkg' hws ih =>
    exact Reach.extToExt hrn ih hpkg hd hres hpkg' hws

/-- C3: on a fixed project snapshot with per-path-unique workspaces,
enabling `recursiveNpm` or `recursiveWorkspaces` (the other flags held
equal) never removes a locator from the collector's result: the result
with the flag off is a subset of the result with it on. -/
theorem collect_flag_monotone (project : Project) (seeds : List Workspace)
    (includeDev recursiveWorkspaces recursiveNpm : Bool)
    (hinj : CwdInjective project seeds) :
    (∀ h, h ∈ collectExternalLocatorHashes project seeds includeDev
        recursiveWorkspaces false →
      h ∈ collectExternalLocatorHashes project seeds includeDev
        recursiveWorkspaces true) ∧
    (∀ h, h ∈ collectExternalLocatorHashes project seeds includeDev
        false recursiveNpm →
      h ∈ collectExternalLocatorHashes project seeds includeDev
        true recursiveNpm) := by
  constructor
  · intro h hm
    rw [collect_mem_iff_reach project seeds includeDev recursiveWorkspaces true hinj]
    exact reach_mono_rn
      ((collect_mem_iff_reach project seeds includeDev recursiveWorkspaces false
        hinj h).mp hm)
  · intro h hm
    rw [collect_mem_iff_reach project seeds includeDev true recursiveNpm hinj]
    exact reach_mono_rw
      ((collect_mem_iff_reach project seeds includeDev false recursiveNpm
        hinj h).mp hm)

theorem reach_workspace_flags_off {project : Project} {seeds : List Workspace}
    {item : QueueItem}
    (hr : Reach project seeds false false false item) :
    ∀ w, item = QueueItem.workspace w → w ∈ seeds := by
  induction hr with
  | seed hw =>
    intro w' heq
    obtain rfl : w' = _ := by injection heq.symm
    exact hw
  | wsToWs _ hrw _ _ _ _ _ => cases hrw
  | wsToExt _ _ _ _ _ _ => exact fun w' heq => by cases heq
  | extToWs hrn _ _ _ _ _ _ _ _ => cases hrn
  | extToExt hrn _ _ _ _ _ _ _ => cases hrn

theorem reach_first_depth_iff (project : Project) (seeds : List Workspace) (h : Nat) :
    Reach project seeds false false false (.locator h) ↔
      firstDepthExternalLocator project seeds h := by
  constructor
  · intro hr
    generalize hit : QueueItem.locator h = item at hr
    cases hr with
    | seed hw => cases hit
    | wsToWs _ hrw _ _ _ _ => cases hit
    | extToWs _ _ _ _ _ _ _ _ => cases hit
    | wsToExt hr' hd hres hpkg hws =>
      rename_i w d h₂ p
      have hh : h = h₂ := by injection hit
      subst hh
      have hw : w ∈ seeds := reach_workspace_flags_off hr' w rfl
      refine ⟨w, hw, d, ?_, hres, ⟨p, hpkg⟩, hws⟩
      simpa [getWorkspaceDependencyDescriptors] using hd
    | extToExt hrn _ _ _ _ _ _ => cases hrn
  · rintro ⟨w, hw, d, hd, hres, ⟨p, hpkg⟩, hws⟩
    refine Reach.wsToExt (Reach.seed hw) ?_ hres hpkg hws
    simpa [getWorkspaceDependencyDescriptors] using hd

/-- C2: with `includeDev`, `recursiveWorkspaces` and `recursiveNpm`
all false, the collector returns exactly the union, over the seed
workspaces, of the external (non-workspace) locators their direct
dependency descriptors resolve to through the resolution table; no
deeper locator is included. -/
theorem collect_first_depth_exact (project : Project) (seeds : List Workspace)
    (hinj : CwdInjective project seeds) (_hne : seeds ≠ []) (h : Nat) :
    h ∈ collectExternalLocatorHashes project seeds false false false ↔
      firstDepthExternalLocator project seeds h := by
  rw [collect_mem_iff_reach project seeds false false false hinj]
  exact reach_first_depth_iff project seeds h

/-- C2 (witness): the first-depth equality instantiated on a two-node
concrete project: the seed's direct dependency resolves to external
locator `100`. -/
theorem collect_first_depth_witness :
    100 ∈ collectExternalLocatorHashes
        { storedResolutions := [(11, 100), (12, 200)],
          storedPackages := [(100, ⟨[15]⟩), (200, ⟨[]⟩)],
          workspaceByLocator := [(200, ⟨2, [], []⟩)],
          normalizeDependency := fun d => d }
        [⟨1, [11, 12], [13]⟩] false false false ↔
      firstDepthExternalLocator
        { storedResolutions := [(11, 100), (12, 200)],
          storedPackages := [(100, ⟨[15]⟩), (200, ⟨[]⟩)],
          workspaceByLocator := [(200, ⟨2, [], []⟩)],
          normalizeDependency := fun d => d }
        [⟨1, [11, 12], [13]⟩] 100 :=
  collect_first_depth_exact
    { storedResolutions := [(11, 100), (12, 200)],
      storedPackages := [(100, ⟨[15]⟩), (200, ⟨[]⟩)],
      workspaceByLocator := [(200, ⟨2, [], []⟩)],
      normalizeDependency := fun d => d }
    [⟨1, [11, 12], [13]⟩] (by decide) (by decide) 100

/-- C3 (witness): flag monotonicity instantiated on a concrete
project with a workspace edge and a transitive npm edge. -/
theorem collect_flag_monotone_witness :
    (∀ h, h ∈ collectExternalLocatorHashes
        { storedResolutions := [(11, 100), (12, 200), (13, 101), (15, 102)],
          storedPackages := [(100, ⟨[15]⟩), (101, ⟨[]⟩), (102, ⟨[]⟩), (200, ⟨[13]⟩)],
          workspaceByLocator := [(200, ⟨2, [13], []⟩)],
          normalizeDependency := fun d => d }
        [⟨1, [11, 12], []⟩] false false false →
      h ∈ collectExternalLocatorHashes
        { storedResolutions := [(11, 100), (12, 200), (13, 101), (15, 102)],
          storedPackages := [(100, ⟨[15]⟩), (101, ⟨[]⟩), (102, ⟨[]⟩), (200, ⟨[13]⟩)],
          workspaceByLocator := [(200, ⟨2, [13], []⟩)],
          normalizeDependency := fun d => d }
        [⟨1, [11, 12], []⟩] false false true) ∧
    (∀ h, h ∈ collectExternalLocatorHashes
        { storedResolutions := [(11, 100), (12, 200), (13, 101), (15, 102)],
          storedPackages := [(100, ⟨[15]⟩), (101, ⟨[]⟩), (102, ⟨[]⟩), (200, ⟨[13]⟩)],
          workspaceByLocator := [(200, ⟨2, [13], []⟩)],
          normalizeDependency := fun d => d }
        [⟨1, [11, 12], []⟩] false false false →
      h ∈ collectExternalLocatorHashes
        { storedResolutions := [(11, 100), (12, 200), (13, 101), (15, 102)],
          storedPackages := [(100, ⟨[15]⟩), (101, ⟨[]⟩), (102, ⟨[]⟩), (200, ⟨[13]⟩)],
          workspaceByLocator := [(200, ⟨2, [13], []⟩)],
          normalizeDependency := fun d => d }
        [⟨1, [11, 12], []⟩] false true false) :=
  collect_flag_monotone
    { storedResolutions := [(11, 100), (12, 200), (13, 101), (15, 102)],
      storedPackages := [(100, ⟨[15]⟩), (101, ⟨[]⟩), (102, ⟨[]⟩), (200, ⟨[13]⟩)],
      workspaceByLocator := [(200, ⟨2, [13], []⟩)],
      normalizeDependency := fun d => d }
    [⟨1, [11, 12], []⟩] false false false (by decide)

end YarnLicenses
